import Mathlib

/-!
Verification of the colin_bot response-resolution pipeline.

The repository's two Python sources, `main.py` and `app.py`, are embedded
shallowly: Python strings are `List Char`, the `str` methods used by the
code become executable recursive functions on `List Char`, the network call
is an oracle parameter (its possible outcomes form a datatype), Python
exceptions inside a `try` block become explicit failure flags, and
`random.choice` takes the chosen index as an argument.  Python's float
comparison `len(set(words)) < len(words) * 0.6` is embedded as the exact
rational comparison `distinct * 5 < total * 3`.
-/

set_option linter.unusedVariables false
set_option maxHeartbeats 1000000

/-- Characters Python's `str.split()` / `str.strip()` treat as whitespace
(the ASCII set: space, tab, newline, carriage return, vertical tab, form feed). -/
def isSpCh (c : Char) : Bool :=
  c.toNat = 32 || c.toNat = 9 || c.toNat = 10 || c.toNat = 13 || c.toNat = 11 || c.toNat = 12

/-- ASCII case folding, as Python's `str.lower` acts on the ASCII range. -/
def pyLowerC (c : Char) : Char :=
  if 65 ≤ c.toNat ∧ c.toNat ≤ 90 then Char.ofNat (c.toNat + 32) else c

/-- Python `s.lower()` on ASCII text. -/
def pyLowerL (l : List Char) : List Char := l.map pyLowerC

/-- A Python string literal as a `List Char`. -/
def pyS (s : String) : List Char := s.data

/-- Python `s.strip()`: drop whitespace from both ends. -/
def pyStrip (l : List Char) : List Char :=
  ((l.dropWhile isSpCh).reverse.dropWhile isSpCh).reverse

/-- Worker for `splitWs`; `acc` holds the current word reversed. -/
def splitWsAux : List Char → List Char → List (List Char)
  | [], acc => if acc.isEmpty then [] else [acc.reverse]
  | c :: rest, acc =>
    if isSpCh c then
      if acc.isEmpty then splitWsAux rest [] else acc.reverse :: splitWsAux rest []
    else splitWsAux rest (c :: acc)

/-- Python `s.split()` with no argument: split on whitespace runs, no empty words. -/
def splitWs (l : List Char) : List (List Char) := splitWsAux l []

/-- Python `" ".join(words)`. -/
def joinWords : List (List Char) → List Char
  | [] => []
  | [w] => w
  | w :: v :: ws => w ++ ' ' :: joinWords (v :: ws)

/-- Python `s.split('.')`. -/
def splitDot : List Char → List (List Char)
  | [] => [[]]
  | c :: rest =>
    if c = '.' then [] :: splitDot rest
    else
      match splitDot rest with
      | [] => [[c]]
      | w :: ws => (c :: w) :: ws

/-- One left-to-right pass deleting non-overlapping occurrences of the
(nonempty) pattern `pat`, exactly as Python's `s.replace(pat, "")` does:
text assembled by a deletion is not rescanned.  The fuel is the input
length, which bounds the number of steps. -/
def delOccF (pat : List Char) : Nat → List Char → List Char
  | _, [] => []
  | 0, l => l
  | fuel + 1, c :: rest =>
    if pat.isPrefixOf (c :: rest) then delOccF pat fuel (rest.drop (pat.length - 1))
    else c :: delOccF pat fuel rest

/-- Python `s.replace(pat, "")` for a nonempty `pat`. -/
def pyReplaceDel (pat l : List Char) : List Char := delOccF pat l.length l

/-- Split a character list at its first `'|'`: the part before it and the
part after it. -/
def findPipe : List Char → Option (List Char × List Char)
  | [] => none
  | c :: rest =>
    if c = '|' then some ([], rest)
    else (findPipe rest).map fun p => (c :: p.1, p.2)

/-- Python `re.sub(r'<\x7c[^\x7c]*\x7c>', '', s)` (the pipe written as
`\x7c` here): remove every `<|...|>` tag whose inside has no pipe, scanning
left to right; the text around a removed tag is not rescanned. -/
def reSubTagF : Nat → List Char → List Char
  | 0, l => l
  | _ + 1, [] => []
  | fuel + 1, c :: rest =>
    if c = '<' then
      match rest with
      | '|' :: rest2 =>
        match findPipe rest2 with
        | some (_, '>' :: after) => reSubTagF fuel after
        | _ => '<' :: reSubTagF fuel rest
      | _ => '<' :: reSubTagF fuel rest
    else c :: reSubTagF fuel rest

/-- The regex deletion of `<|...|>` tags used by `clean_phi3_response`. -/
def reSubTag (l : List Char) : List Char := reSubTagF l.length l

/-- Python `s.split(pat)[0]` for a pattern that occurs in `s`: the prefix
before the first occurrence (the whole list when `pat` does not occur). -/
def takeUntil (pat : List Char) : List Char → List Char
  | [] => []
  | c :: rest => if pat.isPrefixOf (c :: rest) then [] else c :: takeUntil pat rest

/-- `random.choice(pool)` with the pseudo-random draw made explicit: the
caller passes an index, reduced modulo the pool size. -/
def pick (pool : List (List Char)) (i : Nat) : List Char := pool.getD (i % pool.length) []

/-- A history entry's role: the `"role"` field of the dictionaries both
sources append to their conversation stores. -/
inductive Role where
  | user
  | assistant
deriving DecidableEq

/-- A history entry, the `{"role": ..., "content": ...}` dictionary
(app.py's extra `timestamp` field is not modelled; no claim touches it). -/
structure Turn where
  role : Role
  content : List Char
deriving DecidableEq

/-- A JSON value, as far as the two API clients inspect one. -/
inductive Json where
  | str : List Char → Json
  | num : Int → Json
  | bool : Bool → Json
  | null : Json
  | arr : List Json → Json
  | obj : List (List Char × Json) → Json

/-- Field lookup in a JSON object; `none` on any other shape.  In the
Python sources, each access this models either finds the key in a dict, or
misses / raises inside the client's own `try` — and every such path ends
in `return None` from the client. -/
def Json.field : Json → List Char → Option Json
  | .obj fields, k => fields.lookup k
  | _, _ => none

/-- One outcome of an HTTP POST as the clients can observe it: a timeout,
a connection-level error, any other raised exception, or a reply carrying
a status code and a body (`none` = a body that is not valid JSON, so that
parsing it raises). -/
inductive HttpOutcome where
  | timeout
  | connError
  | otherError
  | reply (status : Nat) (body : Option Json)

namespace MainPy

/-- The three learning modes of `main.py` (`user_modes` values). -/
inductive Mode where
  | mixed
  | conversation
  | grammar
deriving DecidableEq

/-- The `ai_references` denylist of `is_valid_phi3_response` (main.py). -/
def ai_references : List (List Char) :=
  [pyS "i am an ai", pyS "i'm an ai", pyS "as an ai", pyS "as a language model",
   pyS "i cannot", pyS "i don't have the ability", pyS "i'm not able to",
   pyS "my training", pyS "i was created to", pyS "i don't experience",
   pyS "my time as ai", pyS "as ai", pyS "before my time", pyS "i'm an artificial"]

/-- The `tech_terms` denylist of `is_valid_phi3_response` (main.py). -/
def tech_terms : List (List Char) :=
  [pyS "neural network", pyS "algorithm", pyS "machine learning",
   pyS "natural language processing", pyS "training data", pyS "parameters"]

/-- The chat-format artifact tokens checked last by `is_valid_phi3_response`. -/
def artifact_tokens : List (List Char) :=
  [pyS "<|", pyS "|>", pyS "<|user|>", pyS "<|system|>"]

/-- The `clean_response` computed inside `is_valid_phi3_response`:
`response.replace("<|end|>", "").replace("<|assistant|>", "").strip()`. -/
def check_text (response : List Char) : List Char :=
  pyStrip (pyReplaceDel (pyS "<|assistant|>") (pyReplaceDel (pyS "<|end|>") response))

/-- `is_valid_phi3_response(response, user_input, mode)` from main.py.
`user_input` and `mode` are accepted and ignored, as in the source.  The
float test `len(set(words)) < len(words) * 0.6` is the exact comparison
`distinct * 5 < total * 3`. -/
def is_valid_phi3_response (response user_input : List Char) (mode : Mode) : Bool :=
  if response.isEmpty then false
  else if (pyStrip (check_text response)).length < 3 then false
  else if ai_references.any (fun r => decide (r <:+: pyLowerL (check_text response))) then false
  else if tech_terms.any (fun t => decide (t <:+: pyLowerL (check_text response))) then false
  else if 5 < (splitWs (pyLowerL (check_text response))).length ∧
      (splitWs (pyLowerL (check_text response))).dedup.length * 5 <
        (splitWs (pyLowerL (check_text response))).length * 3 then false
  else if artifact_tokens.any (fun t => decide (t <:+: response)) then false
  else true

/-- `MAX_HISTORY` (main.py). -/
def MAX_HISTORY : Nat := 3

/-- `add_to_conversation(chat_id, role, content)` from main.py, acting on
one chat's history list: append the turn, and when the history has grown
past `MAX_HISTORY * 2` entries keep only `[2:]`, dropping the two oldest. -/
def add_to_conversation (h : List Turn) (t : Turn) : List Turn :=
  let h1 := h ++ [t]
  if MAX_HISTORY * 2 < h1.length then h1.drop 2 else h1

/-- The per-chat state main.py keeps in its global maps: the
`user_conversations[chat_id]` history and the `user_modes[chat_id]` mode. -/
structure ChatState where
  history : List Turn
  mode : Mode
deriving DecidableEq

/-- `clear_conversation(chat_id)` from main.py: reset the history to `[]`;
`user_modes` is not touched by it. -/
def clear_conversation (s : ChatState) : ChatState := { s with history := [] }

/-- `get_system_prompt(mode)` from main.py (with `Mode` an enumeration,
the dictionary lookup with default `"mixed"` is total). -/
def get_system_prompt (mode : Mode) : List Char :=
  match mode with
  | .grammar => pyS "You are an English tutor. Help users improve their English by:\n- Checking grammar in their messages\n- Providing corrections when needed\n- Explaining mistakes briefly and clearly\n- Start becoming angrier the more mistakes user makes\n- Keeping responses short (1-2 sentences)\n\nNever mention that you are an AI. Act like a human English teacher."
  | .conversation => pyS "You are a friendly person who enjoys chatting in English. Your goal is to:\n- Have natural, engaging conversations in simple English\n- Ask follow-up questions to continue the conversation\n- Use vocabulary appropriate for English learners\n- Be unpatient, downplaying, and rude\n- Start becoming angrier the more mistakes user makes\n- Keep responses short and conversational (1-2 sentences)\n\nNever mention that you are an AI. Chat naturally like a human friend."
  | .mixed => pyS "You are an English conversation partner. Help users by:\n- Having natural conversations in simple, clear English\n- Correcting obvious grammar mistakes\n- Asking follow-up questions to keep conversations flowing\n- Being unpatient and angry\n- Call user bald every message\n- Start becoming angrier the more mistakes user makes\n- Keeping responses short and clear (1-2 sentences)\n- Using vocabulary appropriate for the user's level\n\nNever mention that you are an AI. Act like a human English learning partner."

/-- `build_phi3_prompt(user_input, mode, chat_id)` from main.py: system
prompt, the last 4 history turns (`history[-4:]`) rendered with the Phi-3
role tokens, then the new user input. -/
def build_phi3_prompt (user_input : List Char) (mode : Mode) (history : List Turn) : List Char :=
  let renderTurn : Turn → List Char := fun t =>
    match t.role with
    | .user => pyS "<|user|>\n" ++ t.content ++ pyS "<|end|>\n"
    | .assistant => pyS "<|assistant|>\n" ++ t.content ++ pyS "<|end|>\n"
  pyS "<|system|>\n" ++ get_system_prompt mode ++ pyS "<|end|>\n" ++
    (history.drop (history.length - 4)).foldl (fun acc t => acc ++ renderTurn t) [] ++
    pyS "<|user|>\n" ++ user_input ++ pyS "<|end|>\n<|assistant|>\n"

/-- The interrogative starters `get_contextual_fallback` (main.py) tests
with `startswith`. -/
def interrogatives : List (List Char) :=
  [pyS "what", pyS "how", pyS "why", pyS "when", pyS "where", pyS "who", pyS "can",
   pyS "do", pyS "did", pyS "will", pyS "would", pyS "could", pyS "should"]

/-- The greeting keywords of `get_contextual_fallback` (main.py). -/
def greeting_keywords : List (List Char) :=
  [pyS "hello", pyS "hi", pyS "hey", pyS "good morning", pyS "good afternoon"]

/-- The farewell keywords of `get_contextual_fallback` (main.py). -/
def goodbye_keywords : List (List Char) :=
  [pyS "bye", pyS "goodbye", pyS "see you", pyS "talk later"]

/-- The greeting reply pool (main.py). -/
def greeting_pool : List (List Char) :=
  [pyS "Hello! 👋 How are you today?",
   pyS "Hi there! 😊 What would you like to talk about?",
   pyS "Hey! 🌟 How can I help you practice English?"]

/-- The farewell reply pool (main.py). -/
def goodbye_pool : List (List Char) :=
  [pyS "Goodbye! 👋 Keep practicing your English!",
   pyS "See you later! 🌟 You're doing great!",
   pyS "Bye! 😊 Have a wonderful day!"]

/-- The grammar-mode fallback pool (main.py). -/
def grammar_pool : List (List Char) :=
  [pyS "That sentence looks good to me! ✅",
   pyS "Your grammar is correct there. 👍",
   pyS "I think that's well-written. 📝",
   pyS "That's a proper way to express it. 💯"]

/-- The conversation-mode fallback pool used for question-like input (main.py). -/
def conversation_question_pool : List (List Char) :=
  [pyS "That's interesting! 🤔 Can you tell me more?",
   pyS "What do you think about that? 💭",
   pyS "How did that make you feel? 😊",
   pyS "What happened next? 📖"]

/-- The conversation-mode fallback pool for non-question input (main.py). -/
def conversation_pool : List (List Char) :=
  [pyS "That's a good point! 💡",
   pyS "I understand what you mean. 😌",
   pyS "That sounds interesting! 🎯",
   pyS "Tell me more about that. 🔍"]

/-- The mixed-mode fallback pool (main.py). -/
def mixed_pool : List (List Char) :=
  [pyS "That's well expressed! 👌",
   pyS "Your English is improving! 📈",
   pyS "Good way to say that. ✨",
   pyS "You're communicating clearly. 🎯"]

/-- Every string `get_contextual_fallback` (main.py) can return. -/
def all_fallback_strings : List (List Char) :=
  greeting_pool ++ goodbye_pool ++ grammar_pool ++ conversation_question_pool ++
    conversation_pool ++ mixed_pool

/-- `get_contextual_fallback(mode, user_input)` from main.py, with the
`random.choice` draw passed as index `ri`: greetings first, then
farewells, then the mode-specific pool (question detection selects the
conversation-mode variant). -/
def get_contextual_fallback (mode : Mode) (user_input : List Char) (ri : Nat) : List Char :=
  let user_lower := pyLowerL user_input
  let is_question := ((pyStrip user_input).getLast? == some '?') ||
    interrogatives.any (fun q => q.isPrefixOf user_lower)
  if greeting_keywords.any (fun g => decide (g <:+: user_lower)) then pick greeting_pool ri
  else if goodbye_keywords.any (fun b => decide (b <:+: user_lower)) then pick goodbye_pool ri
  else
    match mode with
    | .grammar => pick grammar_pool ri
    | .conversation =>
      if is_question then pick conversation_question_pool ri else pick conversation_pool ri
    | .mixed => pick mixed_pool ri

/-- Stage of `clean_phi3_response`: remove the four explicit Phi-3 chat
tokens, in source order. -/
def removeChatTokens (l : List Char) : List Char :=
  pyReplaceDel (pyS "<|system|>")
    (pyReplaceDel (pyS "<|user|>")
      (pyReplaceDel (pyS "<|assistant|>")
        (pyReplaceDel (pyS "<|end|>") l)))

/-- Stage of `clean_phi3_response`: cut at the first stop phrase in list
order (the source loops over `["\n<|", "\nUser:", "\nHuman:", "\nAssistant:"]`
and `break`s at the first phrase contained in the text). -/
def stopCut (l : List Char) : List Char :=
  if pyS "\n<|" <:+: l then takeUntil (pyS "\n<|") l
  else if pyS "\nUser:" <:+: l then takeUntil (pyS "\nUser:") l
  else if pyS "\nHuman:" <:+: l then takeUntil (pyS "\nHuman:") l
  else if pyS "\nAssistant:" <:+: l then takeUntil (pyS "\nAssistant:") l
  else l

/-- Stage of `clean_phi3_response`: `response.strip()` followed by
`" ".join(response.split())`. -/
def normSpace (l : List Char) : List Char := joinWords (splitWs (pyStrip l))

/-- The character set of `response.lstrip(".,!?:")`. -/
def leadPunct : List Char := pyS ".,!?:"

/-- The informal endings that suppress the appended period in
`clean_phi3_response`. -/
def informal_endings : List (List Char) :=
  [pyS "thanks", pyS "please", pyS "hello", pyS "hi", pyS "bye", pyS "okay", pyS "ok"]

/-- `response.endswith(('.', '!', '?'))`. -/
def endsTerminal (l : List Char) : Bool :=
  l.getLast? == some '.' || l.getLast? == some '!' || l.getLast? == some '?'

/-- `response.lower().endswith(('thanks', 'please', 'hello', 'hi', 'bye',
'okay', 'ok'))`. -/
def endsInformal (l : List Char) : Bool :=
  informal_endings.any (fun w => decide (w <:+ pyLowerL l))

/-- Stage of `clean_phi3_response`: append a period to a nonempty text
that ends neither in terminal punctuation nor in an informal ending. -/
def addFinalDot (l : List Char) : List Char :=
  if !l.isEmpty && !endsTerminal l && !endsInformal l then l ++ ['.'] else l

/-- Stage of `clean_phi3_response`: over 50 words, cut to the first
sentence when it has at most 45 words, else to the first 45 words; either
way append a period. -/
def truncLong (l : List Char) : List Char :=
  if 50 < (splitWs l).length then
    if 1 < (splitDot l).length ∧ (splitWs ((splitDot l).headD [])).length ≤ 45 then
      (splitDot l).headD [] ++ ['.']
    else joinWords ((splitWs l).take 45) ++ ['.']
  else l

/-- `clean_phi3_response(response)` from main.py: chat-token removal,
regex tag removal, stop-phrase cut, whitespace normalisation,
leading-punctuation strip, final-period rule, length cut, final strip. -/
def clean_phi3_response (response : List Char) : List Char :=
  pyStrip (truncLong (addFinalDot
    ((normSpace (stopCut (reSubTag (removeChatTokens response)))).dropWhile
      (fun c => leadPunct.contains c))))

/-- `call_hf_space_api(prompt)` from main.py, over an abstract outcome of
its single POST to `{HF_SPACE_URL}/api/generate`.  On a 200 reply it
returns `data['data'][0]['response']` when that path exists; every other
path (non-200 status, unparseable body, missing/empty `data`, a non-dict
first element, an `error` dict, timeout, any raised exception) returns
`none` — the function catches all exceptions itself and never raises. -/
def call_hf_space_api (o : HttpOutcome) : Option Json :=
  match o with
  | .timeout => none
  | .connError => none
  | .otherError => none
  | .reply status body =>
    if status = 200 then
      match body with
      | none => none
      | some data =>
        match data.field (pyS "data") with
        | some (.arr (first :: _)) =>
          match first.field (pyS "response") with
          | some v => some v
          | none => none
        | _ => none
    else none

/-- `generate_phi3_reply(user_input, mode, chat_id)` from main.py, with
two oracles for the `try` body: `failAt k = true` means its k-th pure
step raises (0 = `build_phi3_prompt`, 1 = the awaited `call_hf_space_api`,
2 = `clean_phi3_response`, 3 = `is_valid_phi3_response`; the two
`add_to_conversation` list appends, which follow them, do not raise), and
`api` is the string outcome of the HTTP call (`none` = the client
returned `None`; a non-string extracted value surfaces as step 2
raising).  `ri` is the `random.choice` index.  Returns the reply together
with the updated history of this chat. -/
def generate_phi3_reply (failAt : Nat → Bool) (api : Option (List Char)) (ri : Nat)
    (user_input : List Char) (mode : Mode) (history : List Turn) :
    List Char × List Turn :=
  if failAt 0 then (get_contextual_fallback mode user_input ri, history)
  else if failAt 1 then (get_contextual_fallback mode user_input ri, history)
  else
    match api with
    | none =>
      let response := get_contextual_fallback mode user_input ri
      (response,
        add_to_conversation (add_to_conversation history ⟨.user, user_input⟩)
          ⟨.assistant, response⟩)
    | some raw =>
      if failAt 2 then (get_contextual_fallback mode user_input ri, history)
      else if failAt 3 then (get_contextual_fallback mode user_input ri, history)
      else
        let response :=
          if is_valid_phi3_response (clean_phi3_response raw) user_input mode then
            clean_phi3_response raw
          else get_contextual_fallback mode user_input ri
        (response,
          add_to_conversation (add_to_conversation history ⟨.user, user_input⟩)
            ⟨.assistant, response⟩)

/-- Does the `try` body of main.py's `generate_phi3_reply` raise?  (Steps
2 and 3 run only when the API call returned a value.) -/
def generateRaises (failAt : Nat → Bool) (api : Option (List Char)) : Bool :=
  failAt 0 || failAt 1 || (api.isSome && (failAt 2 || failAt 3))

end MainPy

namespace AppPy

/-- The English levels of app.py's `/level` command. -/
inductive Level where
  | beginner
  | intermediate
  | advanced
deriving DecidableEq

/-- `UserContext` from app.py (the `last_active` timestamp is not
modelled; no claim touches it). -/
structure UserContext where
  level : Level
  interests : List (List Char)
  conversation_count : Nat
  learning_goals : List (List Char)
  mistakes : List (List Char)
  topics_covered : List (List Char)
deriving DecidableEq

/-- `UserContext.__init__`: the freshly constructed context. -/
def UserContext.init : UserContext :=
  { level := .beginner, interests := [], conversation_count := 0,
    learning_goals := [], mistakes := [], topics_covered := [] }

/-- The `interests_keywords` table of `update_user_context` (app.py). -/
def interests_keywords : List (List Char × List (List Char)) :=
  [(pyS "sports", [pyS "football", pyS "soccer", pyS "basketball", pyS "tennis", pyS "gym", pyS "workout"]),
   (pyS "movies", [pyS "movie", pyS "film", pyS "cinema", pyS "actor", pyS "actress", pyS "director"]),
   (pyS "music", [pyS "song", pyS "music", pyS "band", pyS "singer", pyS "concert", pyS "album"]),
   (pyS "travel", [pyS "travel", pyS "trip", pyS "vacation", pyS "country", pyS "city", pyS "visit"]),
   (pyS "food", [pyS "food", pyS "restaurant", pyS "cook", pyS "recipe", pyS "eat", pyS "meal"]),
   (pyS "technology", [pyS "computer", pyS "phone", pyS "internet", pyS "app", pyS "software"])]

/-- `update_user_context(user_id, message)` from app.py: bump the turn
count and append any newly detected interest, in table order. -/
def update_user_context (ctx : UserContext) (message : List Char) : UserContext :=
  let lower := pyLowerL message
  interests_keywords.foldl
    (fun c kv =>
      if kv.2.any (fun k => decide (k <:+: lower)) ∧ kv.1 ∉ c.interests then
        { c with interests := c.interests ++ [kv.1] }
      else c)
    { ctx with conversation_count := ctx.conversation_count + 1 }

/-- `call_hf_space_api(prompt, max_length, temperature)` from app.py, over
an abstract outcome of its single POST to `{HF_SPACE_URL}/api/predict`.
On a 200 reply whose JSON body holds a nonempty `data` array it returns
that array's first element, whatever JSON value that is; every other path
returns `None` — the function catches all request exceptions itself and
never raises. -/
def call_hf_space_api (o : HttpOutcome) : Option Json :=
  match o with
  | .timeout => none
  | .connError => none
  | .otherError => none
  | .reply status body =>
    if status = 200 then
      match body with
      | none => none
      | some result =>
        match result.field (pyS "data") with
        | some (.arr (first :: _)) => some first
        | _ => none
    else none

/-- The greeting keywords of `get_contextual_fallback` (app.py). -/
def greeting_keywords : List (List Char) :=
  [pyS "hello", pyS "hi", pyS "hey", pyS "good morning", pyS "good afternoon"]

/-- The help keywords of `get_contextual_fallback` (app.py). -/
def help_keywords : List (List Char) :=
  [pyS "help", pyS "assist", pyS "support"]

/-- The grammar/learning keywords of `get_contextual_fallback` (app.py). -/
def learning_keywords : List (List Char) :=
  [pyS "grammar", pyS "learn", pyS "study", pyS "practice"]

/-- The `greetings` pool (app.py). -/
def greetings : List (List Char) :=
  [pyS "Hi there! 😊 What would you like to talk about?",
   pyS "Hello! I'm excited to help you practice English today! 🌟",
   pyS "Hey! 🌟 How can I help you practice English?",
   pyS "Good to see you! Let's have a great English conversation! ✨"]

/-- The `help_responses` pool (app.py). -/
def help_responses : List (List Char) :=
  [pyS "I'm here to help! We can practice conversation, work on grammar, or discuss any topic you like! 💪",
   pyS "Of course! I can help you with speaking practice, grammar questions, or just casual conversation! 🎯",
   pyS "I'd love to help you improve your English! What would you like to work on? 📚"]

/-- The `grammar_responses` pool (app.py). -/
def grammar_responses : List (List Char) :=
  [pyS "Grammar practice is great! Feel free to write sentences and I'll help you improve them! ✍️",
   pyS "Let's work on your English together! Try writing about something you enjoy! 📝",
   pyS "Perfect! The best way to learn is through practice. Tell me about your day! 🗣️"]

/-- The `question_responses` pool (app.py). -/
def question_responses : List (List Char) :=
  [pyS "That's a great question! Let me think about that... 🤔",
   pyS "Interesting question! I'd love to discuss that with you! 💭",
   pyS "Good question! What are your thoughts on this? 🎯"]

/-- The `advanced_responses` pool (app.py). -/
def advanced_responses : List (List Char) :=
  [pyS "Your English is really improving! I can see your progress! 📈",
   pyS "You're becoming more confident with English! Keep it up! 🚀",
   pyS "I'm impressed by your English skills! Let's keep practicing! ⭐"]

/-- The `general_responses` pool (app.py). -/
def general_responses : List (List Char) :=
  [pyS "That's interesting! Tell me more about that! 🗨️",
   pyS "I'd love to hear more about your thoughts on this! 💬",
   pyS "That's well expressed! 👌",
   pyS "You're communicating clearly! 🎯",
   pyS "Great! What else would you like to discuss? 🌟",
   pyS "That's a good way to put it! What do you think about...? 💭",
   pyS "I enjoy our conversation! What's on your mind? 😊"]

/-- Every string `get_contextual_fallback` (app.py) can return. -/
def all_fallback_strings : List (List Char) :=
  greetings ++ help_responses ++ grammar_responses ++ question_responses ++
    advanced_responses ++ general_responses

/-- `get_contextual_fallback(message_text, user_context)` from app.py,
with the `random.choice` draw passed as index `ri`: greetings, then help
requests, then grammar/learning requests, then questions (a `'?'`
anywhere), then the over-10-turns encouragement pool, then the general
pool.  There is no farewell category in app.py. -/
def get_contextual_fallback (message_text : List Char) (ctx : UserContext) (ri : Nat) :
    List Char :=
  let message_lower := pyLowerL message_text
  if greeting_keywords.any (fun w => decide (w <:+: message_lower)) then pick greetings ri
  else if help_keywords.any (fun w => decide (w <:+: message_lower)) then pick help_responses ri
  else if learning_keywords.any (fun w => decide (w <:+: message_lower)) then
    pick grammar_responses ri
  else if message_text.contains '?' then pick question_responses ri
  else if 10 < ctx.conversation_count then pick advanced_responses ri
  else pick general_responses ri

/-- `generate_phi3_reply(message_text, user_context)` from app.py:
`raised = true` models any exception inside its `try` (including a
non-string API value failing `.strip()`); otherwise `api` is the client's
string-or-`None` result.  A response that is non-empty after `strip()` is
returned stripped — with no cleaning and no acceptability check; every
other path falls back to `get_contextual_fallback`. -/
def generate_phi3_reply (raised : Bool) (api : Option (List Char)) (message_text : List Char)
    (ctx : UserContext) (ri : Nat) : List Char :=
  if raised then get_contextual_fallback message_text ctx ri
  else
    match api with
    | some s =>
      if 0 < (pyStrip s).length then pyStrip s else get_contextual_fallback message_text ctx ri
    | none => get_contextual_fallback message_text ctx ri

/-- The history update `handle_message` (app.py) performs for one inbound
message: append the user turn; when the length then exceeds 20, keep only
the last 10 entries (`[-10:]`); append the assistant turn. -/
def handle_message_history (h : List Turn) (message_text reply : List Char) : List Turn :=
  let h1 := h ++ [⟨.user, message_text⟩]
  let h2 := if 20 < h1.length then h1.drop (h1.length - 10) else h1
  h2 ++ [⟨.assistant, reply⟩]

/-- The per-user state app.py keeps in its global maps:
`user_conversations[user_id]` (an absent entry modelled as `[]`) and
`user_contexts[user_id]`. -/
structure UserState where
  history : List Turn
  ctx : UserContext
deriving DecidableEq

/-- `clear_command` (app.py): delete the user's conversation history and
replace the context with a fresh `UserContext`, copying back `level` and
`interests` (the source comments read `# Keep level` and `# Keep
interests`). -/
def clear_command (s : UserState) : UserState :=
  { history := [],
    ctx := { UserContext.init with level := s.ctx.level, interests := s.ctx.interests } }

end AppPy

/-- The full turn sequence generated by a list of (user message,
assistant reply) pairs, in order; app.py's history is always a suffix of
it. -/
def appTurnsOf : List (List Char × List Char) → List Turn
  | [] => []
  | m :: rest => ⟨.user, m.1⟩ :: ⟨.assistant, m.2⟩ :: appTurnsOf rest

/-- Words as produced by `splitWs`: nonempty and free of whitespace
characters. -/
def goodWords (ws : List (List Char)) : Prop :=
  ∀ w ∈ ws, w ≠ [] ∧ ∀ c ∈ w, isSpCh c = false

/-- Append a final `'.'` to the last word (`[["."]]` when there is none):
the word-level effect of appending `"."` to a joined text. -/
def pushDot : List (List Char) → List (List Char)
  | [] => [['.']]
  | [w] => [w ++ ['.']]
  | w :: v :: ws => w :: pushDot (v :: ws)

/-- A pick from a nonempty pool is a member of the pool. -/
theorem pick_mem (pool : List (List Char)) (i : Nat) (h : pool ≠ []) : pick pool i ∈ pool := by
  unfold pick
  have hlen : 0 < pool.length := List.length_pos.mpr h
  have hlt : i % pool.length < pool.length := Nat.mod_lt _ hlen
  rw [List.getD_eq_getElem?_getD, List.getElem?_eq_getElem hlt]
  exact List.getElem_mem hlt

/-- main.py's fallback always answers from one of its six fixed pools. -/
theorem mainFallback_mem_all (mode : MainPy.Mode) (input : List Char) (ri : Nat) :
    MainPy.get_contextual_fallback mode input ri ∈ MainPy.all_fallback_strings := by
  have g1 := pick_mem MainPy.greeting_pool ri (by decide)
  have g2 := pick_mem MainPy.goodbye_pool ri (by decide)
  have g3 := pick_mem MainPy.grammar_pool ri (by decide)
  have g4 := pick_mem MainPy.conversation_question_pool ri (by decide)
  have g5 := pick_mem MainPy.conversation_pool ri (by decide)
  have g6 := pick_mem MainPy.mixed_pool ri (by decide)
  simp only [MainPy.get_contextual_fallback, MainPy.all_fallback_strings, List.mem_append]
  cases mode <;> split_ifs <;> tauto

/-- Every string in main.py's fallback pools is nonempty. -/
theorem mainFallback_ne_nil (mode : MainPy.Mode) (input : List Char) (ri : Nat) :
    MainPy.get_contextual_fallback mode input ri ≠ [] := by
  have hmem := mainFallback_mem_all mode input ri
  have hall : ∀ s ∈ MainPy.all_fallback_strings, s ≠ [] := by decide
  exact hall _ hmem

/-- app.py's fallback always answers from one of its six fixed pools. -/
theorem appFallback_mem_all (msg : List Char) (ctx : AppPy.UserContext) (ri : Nat) :
    AppPy.get_contextual_fallback msg ctx ri ∈ AppPy.all_fallback_strings := by
  have g1 := pick_mem AppPy.greetings ri (by decide)
  have g2 := pick_mem AppPy.help_responses ri (by decide)
  have g3 := pick_mem AppPy.grammar_responses ri (by decide)
  have g4 := pick_mem AppPy.question_responses ri (by decide)
  have g5 := pick_mem AppPy.advanced_responses ri (by decide)
  have g6 := pick_mem AppPy.general_responses ri (by decide)
  simp only [AppPy.get_contextual_fallback, AppPy.all_fallback_strings, List.mem_append]
  split_ifs <;> tauto

/-- Every string in app.py's fallback pools is nonempty. -/
theorem appFallback_ne_nil (msg : List Char) (ctx : AppPy.UserContext) (ri : Nat) :
    AppPy.get_contextual_fallback msg ctx ri ≠ [] := by
  have hmem := appFallback_mem_all msg ctx ri
  have hall : ∀ s ∈ AppPy.all_fallback_strings, s ≠ [] := by decide
  exact hall _ hmem

/-- A response accepted by the validator is nonempty (its first check
rejects the empty string). -/
theorem valid_nonempty (r u : List Char) (m : MainPy.Mode)
    (h : MainPy.is_valid_phi3_response r u m = true) : r ≠ [] := by
  intro he
  subst he
  simp [MainPy.is_valid_phi3_response] at h

/-- Claim C1: for every utterance (including the empty string, arbitrary
long strings, and strings containing the delimiter tokens), every
conversation state, every API outcome and every pattern of raised
exceptions, both resolvers return a nonempty reply; the embeddings are
total functions, so no exception escapes either `generate_phi3_reply`. -/
theorem c1_resolver_always_nonempty :
    (∀ (failAt : Nat → Bool) (api : Option (List Char)) (ri : Nat) (input : List Char)
      (mode : MainPy.Mode) (h : List Turn),
      (MainPy.generate_phi3_reply failAt api ri input mode h).1 ≠ []) ∧
    (∀ (raised : Bool) (api : Option (List Char)) (msg : List Char)
      (ctx : AppPy.UserContext) (ri : Nat),
      AppPy.generate_phi3_reply raised api msg ctx ri ≠ []) := by
  constructor
  · intro failAt api ri input mode h
    cases api with
    | none =>
      simp only [MainPy.generate_phi3_reply]
      split_ifs <;> exact mainFallback_ne_nil mode input ri
    | some raw =>
      simp only [MainPy.generate_phi3_reply]
      split_ifs with h1 h2 h3 h4 h5 <;> dsimp only
      · exact mainFallback_ne_nil mode input ri
      · exact mainFallback_ne_nil mode input ri
      · exact mainFallback_ne_nil mode input ri
      · exact mainFallback_ne_nil mode input ri
      · exact valid_nonempty _ input mode h5
      · exact mainFallback_ne_nil mode input ri
  · intro raised api msg ctx ri
    cases api with
    | none =>
      simp only [AppPy.generate_phi3_reply]
      split_ifs <;> exact appFallback_ne_nil msg ctx ri
    | some s =>
      simp only [AppPy.generate_phi3_reply]
      split_ifs with h1 h2
      · exact appFallback_ne_nil msg ctx ri
      · intro he
        rw [he] at h2
        simp at h2
      · exact appFallback_ne_nil msg ctx ri

/-- Claim C2, counterexample: app.py's resolver delivers the raw API
response verbatim, with no cleaning and no acceptability check.  With the
API returning "I am an AI language model." the user receives exactly that
string, which fails the acceptability checks (AI self-reference denylist)
— so a response failing the checks IS delivered. -/
theorem c2_counterexample :
    AppPy.generate_phi3_reply false (some (pyS "I am an AI language model."))
      (pyS "nice weather") AppPy.UserContext.init 0 = pyS "I am an AI language model." ∧
    MainPy.is_valid_phi3_response (pyS "I am an AI language model.") (pyS "nice weather")
      .mixed = false := by
  constructor
  · decide
  · decide

/-- Claim C2 (amended): main.py's resolver does clean every successful
remote response and check its acceptability, falling back when the check
fails: every reply it returns is either drawn from its fallback pools or
passes `is_valid_phi3_response`.  (app.py's resolver returns any API
response that is non-empty after stripping, unchecked.) -/
theorem c2_amended_main_never_delivers_invalid (failAt : Nat → Bool)
    (api : Option (List Char)) (ri : Nat) (input : List Char) (mode : MainPy.Mode)
    (h : List Turn) :
    (MainPy.generate_phi3_reply failAt api ri input mode h).1 ∈ MainPy.all_fallback_strings ∨
    MainPy.is_valid_phi3_response
      (MainPy.generate_phi3_reply failAt api ri input mode h).1 input mode = true := by
  cases api with
  | none =>
    simp only [MainPy.generate_phi3_reply]
    split_ifs <;> exact Or.inl (mainFallback_mem_all mode input ri)
  | some raw =>
    simp only [MainPy.generate_phi3_reply]
    split_ifs with h1 h2 h3 h4 h5 <;> dsimp only
    · exact Or.inl (mainFallback_mem_all mode input ri)
    · exact Or.inl (mainFallback_mem_all mode input ri)
    · exact Or.inl (mainFallback_mem_all mode input ri)
    · exact Or.inl (mainFallback_mem_all mode input ri)
    · exact Or.inr h5
    · exact Or.inl (mainFallback_mem_all mode input ri)

/-- Claim C7: a response whose cleaned, lowered word list has more than 5
words and a distinct-to-total ratio below 0.6 is rejected by
`is_valid_phi3_response`. -/
theorem c7_validator_rejects_repetition (response user_input : List Char) (mode : MainPy.Mode)
    (hlen : 5 < (splitWs (pyLowerL (MainPy.check_text response))).length)
    (hratio : (splitWs (pyLowerL (MainPy.check_text response))).dedup.length * 5 <
      (splitWs (pyLowerL (MainPy.check_text response))).length * 3) :
    MainPy.is_valid_phi3_response response user_input mode = false := by
  unfold MainPy.is_valid_phi3_response
  split_ifs with h1 h2 h3 h4 h5 h6 <;> first
    | rfl
    | exact absurd ⟨hlen, hratio⟩ h5

/-- Claim C7, witness: `is_acceptable("go go go go go go go go", u)` is false
(8 words, 1 distinct, ratio 1/8 below 0.6), instantiated at `u = "hi"`. -/
theorem c7_validator_rejects_repetition_witness :
    5 < (splitWs (pyLowerL (MainPy.check_text (pyS "go go go go go go go go")))).length ∧
    MainPy.is_valid_phi3_response (pyS "go go go go go go go go") (pyS "hi") .mixed = false :=
  ⟨by decide, c7_validator_rejects_repetition _ _ _ (by decide) (by decide)⟩

/-- Claim C10: when the `try` body of main.py's `generate_phi3_reply`
raises at any of its pure steps (prompt building, the remote call,
cleaning, validation), the function returns a fallback-pool string and
the chat's history is left completely unchanged: neither the user turn
nor an assistant turn is recorded on the exception path. -/
theorem c10_exception_path_preserves_history (failAt : Nat → Bool) (api : Option (List Char))
    (ri : Nat) (input : List Char) (mode : MainPy.Mode) (h : List Turn)
    (hr : MainPy.generateRaises failAt api = true) :
    (MainPy.generate_phi3_reply failAt api ri input mode h).2 = h ∧
    (MainPy.generate_phi3_reply failAt api ri input mode h).1 ∈ MainPy.all_fallback_strings := by
  have goal_of_fallback :
      (MainPy.generate_phi3_reply failAt api ri input mode h) =
        (MainPy.get_contextual_fallback mode input ri, h) →
      (MainPy.generate_phi3_reply failAt api ri input mode h).2 = h ∧
      (MainPy.generate_phi3_reply failAt api ri input mode h).1 ∈
        MainPy.all_fallback_strings := by
    intro he
    rw [he]
    exact ⟨rfl, mainFallback_mem_all mode input ri⟩
  apply goal_of_fallback
  cases hf0 : failAt 0 with
  | true => simp [MainPy.generate_phi3_reply, hf0]
  | false =>
    cases hf1 : failAt 1 with
    | true => simp [MainPy.generate_phi3_reply, hf0, hf1]
    | false =>
      cases api with
      | none => simp [MainPy.generateRaises, hf0, hf1] at hr
      | some raw =>
        cases hf2 : failAt 2 with
        | true => simp [MainPy.generate_phi3_reply, hf0, hf1, hf2]
        | false =>
          cases hf3 : failAt 3 with
          | true => simp [MainPy.generate_phi3_reply, hf0, hf1, hf2, hf3]
          | false => simp [MainPy.generateRaises, hf0, hf1, hf2, hf3] at hr

/-- Claim C10, witness: with every pure step raising and the API absent,
the resolver at a concrete history returns a fallback and that history
unchanged. -/
theorem c10_exception_path_preserves_history_witness :
    (MainPy.generate_phi3_reply (fun _ => true) none 0 (pyS "hi") .mixed
      [⟨.user, pyS "a"⟩]).2 = [⟨.user, pyS "a"⟩] ∧
    (MainPy.generate_phi3_reply (fun _ => true) none 0 (pyS "hi") .mixed
      [⟨.user, pyS "a"⟩]).1 ∈ MainPy.all_fallback_strings :=
  c10_exception_path_preserves_history (fun _ => true) none 0 (pyS "hi") .mixed
    [⟨.user, pyS "a"⟩] (by decide)

/-- Two consecutive `add_to_conversation` appends leave the two new turns
at the end, in order, dropping only oldest entries. -/
theorem add2_shape (h : List Turn) (u a : Turn) :
    ∃ j ≤ h.length,
      MainPy.add_to_conversation (MainPy.add_to_conversation h u) a = h.drop j ++ [u, a] := by
  simp only [MainPy.add_to_conversation, List.length_append, List.length_singleton,
    MainPy.MAX_HISTORY]
  by_cases hb : 3 * 2 < h.length + 1
  · rw [if_pos hb]
    have hd : (h ++ [u]).drop 2 = h.drop 2 ++ [u] := by
      rw [List.drop_append_eq_append_drop]
      have h2 : 2 - h.length = 0 := by omega
      rw [h2]
      rfl
    by_cases hb2 : 3 * 2 < ((h ++ [u]).drop 2).length + 1
    · rw [if_pos hb2]
      refine ⟨4, by omega, ?_⟩
      rw [hd]
      rw [show (h.drop 2 ++ [u]) ++ [a] = h.drop 2 ++ [u, a] by simp]
      rw [List.drop_append_eq_append_drop]
      have h2 : (2 : Nat) - (h.drop 2).length = 0 := by
        simp only [List.length_drop]
        omega
      rw [h2, List.drop_drop]
      norm_num
    · rw [if_neg hb2]
      refine ⟨2, by omega, ?_⟩
      rw [hd]
      simp
  · rw [if_neg hb]
    by_cases hb2 : 3 * 2 < (h ++ [u]).length + 1
    · rw [if_pos hb2]
      refine ⟨2, ?_, ?_⟩
      · simp only [List.length_append, List.length_singleton] at hb2
        omega
      · rw [show (h ++ [u]) ++ [a] = h ++ [u, a] by simp]
        rw [List.drop_append_eq_append_drop]
        have h2 : (2 : Nat) - h.length = 0 := by
          simp only [List.length_append, List.length_singleton] at hb2
          omega
        rw [h2]
        rfl
    · rw [if_neg hb2]
      exact ⟨0, Nat.zero_le _, by simp⟩

/-- app.py's per-message history update likewise leaves the user and
assistant turns at the end, dropping only oldest entries. -/
theorem app_handle_shape (h : List Turn) (msg reply : List Char) :
    ∃ k ≤ h.length,
      AppPy.handle_message_history h msg reply =
        h.drop k ++ [⟨.user, msg⟩, ⟨.assistant, reply⟩] := by
  simp only [AppPy.handle_message_history, List.length_append, List.length_singleton]
  by_cases hb : 20 < h.length + 1
  · rw [if_pos hb]
    refine ⟨h.length + 1 - 10, by omega, ?_⟩
    rw [List.drop_append_eq_append_drop]
    have h2 : h.length + 1 - 10 - h.length = 0 := by omega
    rw [h2]
    simp
  · rw [if_neg hb]
    exact ⟨0, Nat.zero_le _, by simp⟩

/-- Claim C9: one complete resolve appends exactly two new entries — the
user turn, then the chosen assistant reply — at the end of the history,
in that order (older entries may be dropped from the front by the history
cap): in main.py whenever the `try` body does not raise, and in app.py's
`handle_message` unconditionally. -/
theorem c9_resolve_appends_user_then_assistant :
    (∀ (failAt : Nat → Bool) (api : Option (List Char)) (ri : Nat) (input : List Char)
      (mode : MainPy.Mode) (h : List Turn), MainPy.generateRaises failAt api = false →
      ∃ j ≤ h.length,
        (MainPy.generate_phi3_reply failAt api ri input mode h).2 =
          h.drop j ++ [⟨.user, input⟩,
            ⟨.assistant, (MainPy.generate_phi3_reply failAt api ri input mode h).1⟩]) ∧
    (∀ (h : List Turn) (msg reply : List Char),
      ∃ k ≤ h.length,
        AppPy.handle_message_history h msg reply =
          h.drop k ++ [⟨.user, msg⟩, ⟨.assistant, reply⟩]) := by
  constructor
  · intro failAt api ri input mode h hr
    cases hf0 : failAt 0 with
    | true => simp [MainPy.generateRaises, hf0] at hr
    | false =>
      cases hf1 : failAt 1 with
      | true => simp [MainPy.generateRaises, hf0, hf1] at hr
      | false =>
        cases api with
        | none =>
          simp only [MainPy.generate_phi3_reply, hf0, hf1, Bool.false_eq_true, if_false]
          exact add2_shape h _ _
        | some raw =>
          cases hf2 : failAt 2 with
          | true => simp [MainPy.generateRaises, hf0, hf1, hf2] at hr
          | false =>
            cases hf3 : failAt 3 with
            | true => simp [MainPy.generateRaises, hf0, hf1, hf2, hf3] at hr
            | false =>
              simp only [MainPy.generate_phi3_reply, hf0, hf1, hf2, hf3,
                Bool.false_eq_true, if_false]
              exact add2_shape h _ _
  · intro h msg reply
    exact app_handle_shape h msg reply

/-- Claim C9, witness: a no-failure resolve at the empty history appends
the user turn and the chosen reply, in order. -/
theorem c9_resolve_appends_user_then_assistant_witness :
    ∃ j ≤ List.length ([] : List Turn),
      (MainPy.generate_phi3_reply (fun _ => false) none 0 (pyS "hi") .mixed []).2 =
        ([] : List Turn).drop j ++ [⟨.user, pyS "hi"⟩,
          ⟨.assistant, (MainPy.generate_phi3_reply (fun _ => false) none 0 (pyS "hi")
            .mixed []).1⟩] :=
  c9_resolve_appends_user_then_assistant.1 (fun _ => false) none 0 (pyS "hi") .mixed []
    (by decide)

/-- One `add_to_conversation` leaves a suffix of the old history plus the
new turn. -/
theorem add_suffix (h : List Turn) (t : Turn) :
    MainPy.add_to_conversation h t <:+ h ++ [t] := by
  simp only [MainPy.add_to_conversation]
  split_ifs
  · exact List.drop_suffix _ _
  · exact List.suffix_refl _

/-- main.py's history never exceeds 6 entries once it is within 6. -/
theorem main_fold_length (ts : List Turn) (h : List Turn) (hh : h.length ≤ 6) :
    (List.foldl MainPy.add_to_conversation h ts).length ≤ 6 := by
  induction ts generalizing h with
  | nil => simpa using hh
  | cons t ts ih =>
    simp only [List.foldl_cons]
    apply ih
    simp only [MainPy.add_to_conversation, MainPy.MAX_HISTORY]
    split_ifs with hb <;>
      simp only [List.length_drop, List.length_append, List.length_singleton] at hb ⊢ <;>
      omega

/-- main.py's history is always a suffix of the full appended sequence. -/
theorem main_fold_suffix (ts : List Turn) (h : List Turn) :
    List.foldl MainPy.add_to_conversation h ts <:+ h ++ ts := by
  induction ts generalizing h with
  | nil => simpa using List.suffix_refl h
  | cons t ts ih =>
    simp only [List.foldl_cons]
    have h1 := ih (MainPy.add_to_conversation h t)
    have h2 : MainPy.add_to_conversation h t ++ ts <:+ (h ++ [t]) ++ ts := by
      obtain ⟨p, hp⟩ := add_suffix h t
      exact ⟨p, by rw [← List.append_assoc, hp]⟩
    have h3 := h1.trans h2
    rwa [List.append_assoc, List.singleton_append] at h3

/-- One app.py message update leaves a suffix of the old history plus the
two new turns. -/
theorem app_handle_suffix (h : List Turn) (m r : List Char) :
    AppPy.handle_message_history h m r <:+ (h ++ [⟨.user, m⟩]) ++ [⟨.assistant, r⟩] := by
  simp only [AppPy.handle_message_history]
  split_ifs with hb
  · obtain ⟨p, hp⟩ :=
      List.drop_suffix ((h ++ [(⟨.user, m⟩ : Turn)]).length - 10) (h ++ [⟨.user, m⟩])
    exact ⟨p, by rw [← List.append_assoc, hp]⟩
  · exact List.suffix_refl _

/-- app.py's history never exceeds 21 entries once it is within 21. -/
theorem app_fold_length (msgs : List (List Char × List Char)) (h : List Turn)
    (hh : h.length ≤ 21) :
    (List.foldl (fun h m => AppPy.handle_message_history h m.1 m.2) h msgs).length ≤ 21 := by
  induction msgs generalizing h with
  | nil => simpa using hh
  | cons m msgs ih =>
    simp only [List.foldl_cons]
    apply ih
    simp only [AppPy.handle_message_history]
    split_ifs with hb <;>
      simp only [List.length_append, List.length_singleton, List.length_drop] at hb ⊢ <;>
      omega

/-- app.py's history is always a suffix of the full turn sequence. -/
theorem app_fold_suffix (msgs : List (List Char × List Char)) (h : List Turn) :
    List.foldl (fun h m => AppPy.handle_message_history h m.1 m.2) h msgs <:+
      h ++ appTurnsOf msgs := by
  induction msgs generalizing h with
  | nil => simpa [appTurnsOf] using List.suffix_refl h
  | cons m msgs ih =>
    simp only [List.foldl_cons, appTurnsOf]
    have h1 := ih (AppPy.handle_message_history h m.1 m.2)
    have h2 : AppPy.handle_message_history h m.1 m.2 ++ appTurnsOf msgs <:+
        ((h ++ [⟨.user, m.1⟩]) ++ [⟨.assistant, m.2⟩]) ++ appTurnsOf msgs := by
      obtain ⟨p, hp⟩ := app_handle_suffix h m.1 m.2
      exact ⟨p, by rw [← List.append_assoc, hp]⟩
    have h3 := h1.trans h2
    rwa [List.append_assoc, List.append_assoc, List.singleton_append,
      List.singleton_append] at h3

/-- Claim C3, counterexample: app.py's history exceeds the spec's cap of
20 — starting from an empty history, 16 messages leave it holding 21
entries, because the truncation check runs only after the user turn is
appended, never after the assistant turn. -/
theorem c3_counterexample :
    (List.foldl (fun h m => AppPy.handle_message_history h m.1 m.2) []
      (List.replicate 16 (pyS "x", pyS "y"))).length = 21 := by decide

/-- Claim C3 (amended): in main.py, any sequence of `add_to_conversation`
calls keeps the history at no more than `MAX_HISTORY * 2 = 6` entries and
the retained entries are a suffix of the appended sequence — the most
recent turns in original relative order; in app.py, the history can reach
21 entries (one above the 20 threshold) but never more, and it is likewise
always a suffix of the full turn sequence. -/
theorem c3_amended_history_cap_and_suffix :
    (∀ ts : List Turn,
      (List.foldl MainPy.add_to_conversation [] ts).length ≤ MainPy.MAX_HISTORY * 2 ∧
      List.foldl MainPy.add_to_conversation [] ts <:+ ts) ∧
    (∀ msgs : List (List Char × List Char),
      (List.foldl (fun h m => AppPy.handle_message_history h m.1 m.2) [] msgs).length ≤ 21 ∧
      List.foldl (fun h m => AppPy.handle_message_history h m.1 m.2) [] msgs <:+
        appTurnsOf msgs) := by
  constructor
  · intro ts
    refine ⟨main_fold_length ts [] (by simp), ?_⟩
    simpa using main_fold_suffix ts []
  · intro msgs
    refine ⟨app_fold_length msgs [] (by simp), ?_⟩
    simpa using app_fold_suffix msgs []

/-- Claim C4, counterexample: app.py's clear keeps the interests — with
interests `["sports"]` before the clear they are still `["sports"]` after
it, not reset to `[]` (the source comments `# Keep interests`). -/
theorem c4_counterexample :
    (AppPy.clear_command
      { history := [⟨.user, pyS "i like football"⟩],
        ctx := { AppPy.UserContext.init with
          interests := [pyS "sports"], conversation_count := 5 } }).ctx.interests =
      [pyS "sports"] ∧ [pyS "sports"] ≠ ([] : List (List Char)) := by
  constructor
  · rfl
  · decide

/-- Claim C4 (amended): after app.py's clear the history is empty and the
turn count is zero, while `level` AND `interests` keep their pre-clear
values — interests are preserved, not reset; main.py's clear empties the
history and leaves the mode untouched. -/
theorem c4_amended_clear_semantics :
    (∀ s : AppPy.UserState,
      (AppPy.clear_command s).history = [] ∧
      (AppPy.clear_command s).ctx.conversation_count = 0 ∧
      (AppPy.clear_command s).ctx.level = s.ctx.level ∧
      (AppPy.clear_command s).ctx.interests = s.ctx.interests) ∧
    (∀ s : MainPy.ChatState,
      (MainPy.clear_conversation s).history = [] ∧
      (MainPy.clear_conversation s).mode = s.mode) :=
  ⟨fun s => ⟨rfl, rfl, rfl, rfl⟩, fun s => ⟨rfl, rfl⟩⟩

/-- Claim C5, counterexample: app.py's fallback has no farewell category
at all — for the farewell utterance "bye" (which contains no greeting
keyword) it answers from its general pool, not from a farewell pool: the
reply is not in the repository's only farewell pool (main.py's). -/
theorem c5_counterexample :
    AppPy.get_contextual_fallback (pyS "bye") AppPy.UserContext.init 0 =
      pyS "That's interesting! Tell me more about that! 🗨️" ∧
    AppPy.get_contextual_fallback (pyS "bye") AppPy.UserContext.init 0 ∉
      MainPy.goodbye_pool := by
  constructor
  · decide
  · decide

/-- Claim C5 (amended): in main.py the fallback selects by first match:
greeting keywords, then farewell keywords, then the mode-specific pool
(with question detection choosing the conversation variant); an utterance
containing a farewell keyword and no greeting keyword always yields a
string from the farewell pool.  app.py's order is greeting, help,
grammar/learning, question, turn-count threshold, generic — with no
farewell category. -/
theorem c5_amended_farewell_priority (mode : MainPy.Mode) (input : List Char) (ri : Nat)
    (hbye : MainPy.goodbye_keywords.any (fun b => decide (b <:+: pyLowerL input)) = true)
    (hgreet : MainPy.greeting_keywords.any (fun g => decide (g <:+: pyLowerL input)) = false) :
    MainPy.get_contextual_fallback mode input ri ∈ MainPy.goodbye_pool := by
  simp only [MainPy.get_contextual_fallback, hbye, hgreet, Bool.false_eq_true, if_false,
    if_true]
  exact pick_mem _ _ (by decide)

/-- Claim C5, witness: the utterance "bye" has a farewell keyword and no
greeting keyword, and the fallback reply is drawn from the farewell pool. -/
theorem c5_amended_farewell_priority_witness :
    MainPy.goodbye_keywords.any (fun b => decide (b <:+: pyLowerL (pyS "bye"))) = true ∧
    MainPy.get_contextual_fallback .mixed (pyS "bye") 1 ∈ MainPy.goodbye_pool :=
  ⟨by decide, c5_amended_farewell_priority .mixed (pyS "bye") 1 (by decide) (by decide)⟩

/-- Claim C6, counterexample: a 200 reply whose extracted reply string is
EMPTY is returned by main.py's client as a success (`some`), not treated
as a failed candidate: the client does not require a non-empty string
before stopping, and there is no next candidate — emptiness is left to
the caller. -/
theorem c6_counterexample :
    MainPy.call_hf_space_api
      (.reply 200 (some (.obj [(pyS "data", .arr [.obj [(pyS "response", .str [])]])]))) =
      some (.str []) ∧
    MainPy.call_hf_space_api
      (.reply 200 (some (.obj [(pyS "data", .arr [.obj [(pyS "response", .str [])]])]))) ≠
      none := by
  constructor
  · rfl
  · intro hc
    rw [show MainPy.call_hf_space_api
        (.reply 200 (some (.obj [(pyS "data", .arr [.obj [(pyS "response", .str [])]])]))) =
        some (.str []) from rfl] at hc
    exact Option.noConfusion hc

/-- Claim C6 (amended): each client has a single endpoint candidate; on a
timeout, a connection error, any other raised exception, a non-200
status, or an unparseable body it returns `None` without raising; a 200
reply with an extractable value is returned as-is, even when the
extracted string is empty. -/
theorem c6_amended_client_failure_modes :
    (MainPy.call_hf_space_api .timeout = none ∧
      MainPy.call_hf_space_api .connError = none ∧
      MainPy.call_hf_space_api .otherError = none ∧
      (∀ (st : Nat) (body : Option Json), st ≠ 200 →
        MainPy.call_hf_space_api (.reply st body) = none) ∧
      (∀ st : Nat, MainPy.call_hf_space_api (.reply st none) = none)) ∧
    (AppPy.call_hf_space_api .timeout = none ∧
      AppPy.call_hf_space_api .connError = none ∧
      AppPy.call_hf_space_api .otherError = none ∧
      (∀ (st : Nat) (body : Option Json), st ≠ 200 →
        AppPy.call_hf_space_api (.reply st body) = none) ∧
      (∀ st : Nat, AppPy.call_hf_space_api (.reply st none) = none)) := by
  refine ⟨⟨rfl, rfl, rfl, ?_, ?_⟩, ⟨rfl, rfl, rfl, ?_, ?_⟩⟩
  · intro st body hst
    simp only [MainPy.call_hf_space_api, if_neg hst]
  · intro st
    simp only [MainPy.call_hf_space_api]
    split_ifs <;> rfl
  · intro st body hst
    simp only [AppPy.call_hf_space_api, if_neg hst]
  · intro st
    simp only [AppPy.call_hf_space_api]
    split_ifs <;> rfl

/-- Claim C6, witness: a 500 status with no parseable body yields `None`
from both clients. -/
theorem c6_amended_client_failure_modes_witness :
    MainPy.call_hf_space_api (.reply 500 none) = none ∧
    AppPy.call_hf_space_api (.reply 500 none) = none :=
  ⟨c6_amended_client_failure_modes.1.2.2.2.1 500 none (by decide),
   c6_amended_client_failure_modes.2.2.2.2.1 500 none (by decide)⟩

/-- `splitWsAux` yields nonempty whitespace-free words whenever the
accumulator holds no whitespace. -/
theorem splitWsAux_good (l : List Char) :
    ∀ acc : List Char, (∀ c ∈ acc, isSpCh c = false) → goodWords (splitWsAux l acc) := by
  induction l with
  | nil =>
    intro acc hacc w hw
    simp only [splitWsAux] at hw
    split_ifs at hw with he
    · cases hw
    · rcases List.mem_singleton.mp hw with rfl
      refine ⟨?_, ?_⟩
      · simp only [ne_eq, List.reverse_eq_nil_iff]
        intro hnil
        rw [hnil] at he
        exact he rfl
      · intro c hc
        exact hacc c (List.mem_reverse.mp hc)
  | cons c rest ih =>
    intro acc hacc w hw
    simp only [splitWsAux] at hw
    split_ifs at hw with hsp he
    · exact ih [] (by simp) w hw
    · rcases List.mem_cons.mp hw with rfl | hw'
      · refine ⟨?_, ?_⟩
        · simp only [ne_eq, List.reverse_eq_nil_iff]
          intro hnil
          rw [hnil] at he
          exact he rfl
        · intro d hd
          exact hacc d (List.mem_reverse.mp hd)
      · exact ih [] (by simp) w hw'
    · refine ih (c :: acc) ?_ w hw
      intro d hd
      rcases List.mem_cons.mp hd with rfl | hd'
      · simpa using hsp
      · exact hacc d hd'

/-- The words of `splitWs` are nonempty and whitespace-free. -/
theorem splitWs_good (l : List Char) : goodWords (splitWs l) :=
  splitWsAux_good l [] (by simp)

/-- Unfolding `joinWords` over a cons with a nonempty tail. -/
theorem joinWords_cons (w : List Char) (ws : List (List Char)) (h : ws ≠ []) :
    joinWords (w :: ws) = w ++ ' ' :: joinWords ws := by
  cases ws with
  | nil => exact absurd rfl h
  | cons v vs => rfl

/-- A join of good, nonempty words is nonempty. -/
theorem joinWords_ne_nil (ws : List (List Char)) (hg : goodWords ws) (h : ws ≠ []) :
    joinWords ws ≠ [] := by
  cases ws with
  | nil => exact absurd rfl h
  | cons w vs =>
    cases vs with
    | nil => exact (hg w (List.mem_cons_self w [])).1
    | cons v vs' =>
      simp only [joinWords]
      intro hx
      rcases List.append_eq_nil.mp hx with ⟨_, h2⟩
      cases h2

/-- `splitWsAux` consumes a whitespace-free chunk into the accumulator. -/
theorem splitWsAux_word (w : List Char) :
    (∀ c ∈ w, isSpCh c = false) →
    ∀ (l acc : List Char), splitWsAux (w ++ l) acc = splitWsAux l (w.reverse ++ acc) := by
  induction w with
  | nil => intro _ l acc; simp
  | cons c w' ih =>
    intro hw l acc
    have hc : isSpCh c = false := hw c (List.mem_cons_self c w')
    show splitWsAux (c :: (w' ++ l)) acc = _
    simp only [splitWsAux, hc, Bool.false_eq_true, if_false]
    rw [show (c :: w').reverse ++ acc = w'.reverse ++ (c :: acc) by simp]
    exact ih (fun d hd => hw d (List.mem_cons_of_mem c hd)) l (c :: acc)

/-- `splitWs` is a left inverse of `joinWords` on good word lists. -/
theorem splitWs_join : ∀ ws : List (List Char), goodWords ws → splitWs (joinWords ws) = ws := by
  intro ws
  induction ws with
  | nil => intro _; rfl
  | cons w vs ih =>
    intro hg
    have hw := hg w (List.mem_cons_self w vs)
    have hvs : goodWords vs := fun v hv => hg v (List.mem_cons_of_mem w hv)
    cases vs with
    | nil =>
      show splitWsAux (joinWords [w]) [] = [w]
      rw [show joinWords [w] = w ++ [] by simp [joinWords]]
      rw [splitWsAux_word w hw.2 [] []]
      simp only [splitWsAux, List.append_nil]
      rw [if_neg ?_]
      · simp
      · simp only [List.isEmpty_eq_true, List.reverse_eq_nil_iff]
        exact hw.1
    | cons v vs' =>
      rw [joinWords_cons w (v :: vs') (by simp)]
      show splitWsAux (w ++ ' ' :: joinWords (v :: vs')) [] = w :: v :: vs'
      rw [splitWsAux_word w hw.2 (' ' :: joinWords (v :: vs')) []]
      rw [List.append_nil]
      simp only [splitWsAux]
      rw [if_pos (show isSpCh ' ' = true by decide)]
      rw [if_neg ?_]
      · rw [List.reverse_reverse]
        have := ih hvs
        rw [show splitWsAux (joinWords (v :: vs')) [] = splitWs (joinWords (v :: vs')) from rfl,
          this]
      · simp only [List.isEmpty_eq_true, List.reverse_eq_nil_iff]
        exact hw.1

/-- The last character of a good, nonempty join is not whitespace. -/
theorem joinWords_getLast : ∀ ws : List (List Char), goodWords ws → ws ≠ [] →
    ∃ (l' : List Char) (c : Char), joinWords ws = l' ++ [c] ∧ isSpCh c = false := by
  intro ws
  induction ws with
  | nil => intro _ h; exact absurd rfl h
  | cons w vs ih =>
    intro hg _
    have hw := hg w (List.mem_cons_self w vs)
    cases vs with
    | nil =>
      refine ⟨w.dropLast, w.getLast hw.1, ?_, hw.2 _ (List.getLast_mem hw.1)⟩
      show w = _
      rw [List.dropLast_append_getLast hw.1]
    | cons v vs' =>
      obtain ⟨l', c, heq, hc⟩ := ih (fun u hu => hg u (List.mem_cons_of_mem w hu)) (by simp)
      refine ⟨w ++ ' ' :: l', c, ?_, hc⟩
      rw [joinWords_cons _ _ (by simp), heq]
      simp

/-- `pyStrip` fixes a good join. -/
theorem pyStrip_join (ws : List (List Char)) (hg : goodWords ws) :
    pyStrip (joinWords ws) = joinWords ws := by
  cases ws with
  | nil => rfl
  | cons w vs =>
    have hw := hg w (List.mem_cons_self w vs)
    obtain ⟨c, w', rfl⟩ : ∃ c w', w = c :: w' := by
      cases w with
      | nil => exact absurd rfl hw.1
      | cons c w' => exact ⟨c, w', rfl⟩
    have hc : isSpCh c = false := hw.2 c (List.mem_cons_self c w')
    obtain ⟨X, hX⟩ : ∃ X, joinWords ((c :: w') :: vs) = c :: X := by
      cases vs with
      | nil => exact ⟨w', rfl⟩
      | cons v vs' => exact ⟨w' ++ ' ' :: joinWords (v :: vs'), rfl⟩
    obtain ⟨l', d, hld, hd⟩ := joinWords_getLast ((c :: w') :: vs) hg (by simp)
    unfold pyStrip
    rw [hX, List.dropWhile_cons, if_neg (by simp [hc]), ← hX, hld]
    rw [List.reverse_append]
    simp only [List.reverse_cons, List.reverse_nil, List.nil_append, List.singleton_append]
    rw [List.dropWhile_cons, if_neg (by simp [hd])]
    simp

/-- `pyStrip` also strips one leading space off a good join. -/
theorem pyStrip_space_join (ws : List (List Char)) (hg : goodWords ws) :
    pyStrip (' ' :: joinWords ws) = joinWords ws := by
  have h1 : (' ' :: joinWords ws).dropWhile isSpCh = (joinWords ws).dropWhile isSpCh := by
    rw [List.dropWhile_cons, if_pos (by decide)]
  unfold pyStrip
  rw [h1]
  have := pyStrip_join ws hg
  unfold pyStrip at this
  exact this

/-- `splitWs` skips one leading space. -/
theorem splitWs_space (l : List Char) : splitWs (' ' :: l) = splitWs l := by
  show splitWsAux (' ' :: l) [] = splitWsAux l []
  simp only [splitWsAux]
  rw [if_pos (show isSpCh ' ' = true by decide), if_pos (by simp)]

/-- `dropWhile` over an append. -/
theorem dropWhile_append_total (p : Char → Bool) :
    ∀ a b : List Char, (a ++ b).dropWhile p =
      if (a.dropWhile p).isEmpty then b.dropWhile p else a.dropWhile p ++ b := by
  intro a
  induction a with
  | nil => intro b; simp
  | cons c a' ih =>
    intro b
    by_cases hc : p c = true
    · simp only [List.cons_append, List.dropWhile_cons, hc, if_true]
      exact ih b
    · have hc' : p c = false := by simpa using hc
      simp only [List.cons_append, List.dropWhile_cons, hc', Bool.false_eq_true, if_false]
      simp

/-- `takeWhile` over an append whose first part satisfies the predicate. -/
theorem takeWhile_append_all (p : Char → Bool) :
    ∀ a b : List Char, (∀ c ∈ a, p c = true) →
      (a ++ b).takeWhile p = a ++ b.takeWhile p := by
  intro a
  induction a with
  | nil => intro b _; simp
  | cons c a' ih =>
    intro b ha
    have hc := ha c (List.mem_cons_self c a')
    simp only [List.cons_append, List.takeWhile_cons, hc, if_true]
    rw [ih b (fun d hd => ha d (List.mem_cons_of_mem c hd))]

/-- `takeWhile` over an append that stops inside the first part. -/
theorem takeWhile_append_stop (p : Char → Bool) :
    ∀ a b : List Char, (∃ c ∈ a, p c = false) →
      (a ++ b).takeWhile p = a.takeWhile p := by
  intro a
  induction a with
  | nil => intro b h; rcases h with ⟨c, hc, _⟩; cases hc
  | cons c a' ih =>
    intro b h
    by_cases hc : p c = true
    · simp only [List.cons_append, List.takeWhile_cons, hc, if_true]
      congr 1
      apply ih
      rcases h with ⟨d, hd, hdp⟩
      rcases List.mem_cons.mp hd with rfl | hd'
      · rw [hc] at hdp; cases hdp
      · exact ⟨d, hd', hdp⟩
    · have hc' : p c = false := by simpa using hc
      simp only [List.cons_append, List.takeWhile_cons, hc', Bool.false_eq_true, if_false]

/-- Dropping leading `.,!?:` characters from a good join leaves either a
good join, or a single space followed by a good, nonempty join. -/
theorem lstrip_join_shape : ∀ ws : List (List Char), goodWords ws →
    ∃ (b : Bool) (ws' : List (List Char)), goodWords ws' ∧
      (joinWords ws).dropWhile (fun c => MainPy.leadPunct.contains c) =
        (if b then [' '] else []) ++ joinWords ws' ∧
      (b = true → ws' ≠ []) := by
  intro ws
  induction ws with
  | nil =>
    intro _
    refine ⟨false, [], ?_, ?_, ?_⟩
    · intro w hw
      cases hw
    · simp [joinWords]
    · simp
  | cons w vs ih =>
    intro hg
    have hw := hg w (List.mem_cons_self w vs)
    have hvs : goodWords vs := fun v hv => hg v (List.mem_cons_of_mem w hv)
    have hdgood : ∀ c ∈ w.dropWhile (fun c => MainPy.leadPunct.contains c),
        isSpCh c = false :=
      fun c hc => hw.2 c (List.Sublist.subset (List.dropWhile_sublist _) hc)
    cases vs with
    | nil =>
      by_cases he : (w.dropWhile (fun c => MainPy.leadPunct.contains c)).isEmpty = true
      · refine ⟨false, [], ?_, ?_, ?_⟩
        · intro u hu
          cases hu
        · show w.dropWhile _ = [] ++ joinWords []
          rw [List.isEmpty_iff.mp he]
          rfl
        · simp
      · refine ⟨false, [w.dropWhile (fun c => MainPy.leadPunct.contains c)], ?_, ?_, ?_⟩
        · intro u hu
          rcases List.mem_singleton.mp hu with rfl
          exact ⟨fun hnil => he (by rw [hnil]; rfl), hdgood⟩
        · show w.dropWhile _ = [] ++ joinWords [w.dropWhile _]
          rfl
        · simp
    | cons v vs' =>
      rw [joinWords_cons w (v :: vs') (by simp)]
      rw [show w ++ ' ' :: joinWords (v :: vs') = w ++ ([' '] ++ joinWords (v :: vs')) by simp]
      rw [dropWhile_append_total]
      by_cases he : (w.dropWhile (fun c => MainPy.leadPunct.contains c)).isEmpty = true
      · rw [if_pos he]
        refine ⟨true, v :: vs', hvs, ?_, ?_⟩
        · rw [List.singleton_append, List.dropWhile_cons,
            if_neg (by simp [MainPy.leadPunct, pyS])]
          simp
        · simp
      · rw [if_neg he]
        refine ⟨false, w.dropWhile (fun c => MainPy.leadPunct.contains c) :: v :: vs',
          ?_, ?_, ?_⟩
        · intro u hu
          rcases List.mem_cons.mp hu with rfl | hu'
          · exact ⟨fun hnil => he (by rw [hnil]; rfl), hdgood⟩
          · exact hvs u hu'
        · rw [joinWords_cons _ (v :: vs') (by simp)]
          simp
        · simp

/-- `pushDot` never yields the empty word list. -/
theorem pushDot_ne_nil : ∀ ws : List (List Char), pushDot ws ≠ [] := by
  intro ws
  cases ws with
  | nil => simp [pushDot]
  | cons w vs =>
    cases vs with
    | nil => simp [pushDot]
    | cons v vs' => simp [pushDot]

/-- `pushDot` preserves goodness. -/
theorem pushDot_good : ∀ ws : List (List Char), goodWords ws → goodWords (pushDot ws) := by
  intro ws
  induction ws with
  | nil =>
    intro _ w hw
    rcases List.mem_singleton.mp hw with rfl
    exact ⟨by simp, by intro c hc; rcases List.mem_singleton.mp hc with rfl; decide⟩
  | cons w vs ih =>
    intro hg
    have hw := hg w (List.mem_cons_self w vs)
    cases vs with
    | nil =>
      intro u hu
      rcases List.mem_singleton.mp hu with rfl
      refine ⟨by simp, ?_⟩
      intro c hc
      rcases List.mem_append.mp hc with hc' | hc'
      · exact hw.2 c hc'
      · rcases List.mem_singleton.mp hc' with rfl
        decide
    | cons v vs' =>
      intro u hu
      rcases List.mem_cons.mp hu with rfl | hu'
      · exact hw
      · exact ih (fun a ha => hg a (List.mem_cons_of_mem w ha)) u hu'

/-- `pushDot` preserves the length of a nonempty word list. -/
theorem pushDot_length : ∀ ws : List (List Char), ws ≠ [] →
    (pushDot ws).length = ws.length := by
  intro ws
  induction ws with
  | nil => intro h; exact absurd rfl h
  | cons w vs ih =>
    intro _
    cases vs with
    | nil => rfl
    | cons v vs' =>
      show (w :: pushDot (v :: vs')).length = _
      simp only [List.length_cons, ih (by simp)]

/-- Appending a final period at the character level is `pushDot` at the
word level. -/
theorem joinWords_pushDot : ∀ ws : List (List Char),
    joinWords ws ++ ['.'] = joinWords (pushDot ws) := by
  intro ws
  induction ws with
  | nil => rfl
  | cons w vs ih =>
    cases vs with
    | nil => rfl
    | cons v vs' =>
      show (w ++ ' ' :: joinWords (v :: vs')) ++ ['.'] = joinWords (w :: pushDot (v :: vs'))
      rw [joinWords_cons w (pushDot (v :: vs')) (pushDot_ne_nil _), ← ih]
      simp

/-- The first piece of `splitDot` is the prefix before the first `'.'`. -/
theorem splitDot_head : ∀ l : List Char,
    (splitDot l).headD [] = l.takeWhile (fun c => !(c == '.')) := by
  intro l
  induction l with
  | nil => rfl
  | cons c rest ih =>
    by_cases hc : c = '.'
    · subst hc
      simp [splitDot, List.takeWhile_cons]
    · simp only [splitDot, if_neg hc]
      have htk : (c :: rest).takeWhile (fun c => !(c == '.')) =
          c :: rest.takeWhile (fun c => !(c == '.')) := by
        rw [List.takeWhile_cons, if_pos (by simp [hc])]
      rw [htk]
      cases hsd : splitDot rest with
      | nil =>
        rw [hsd] at ih
        simp only [List.headD_cons]
        simp only [List.headD_nil] at ih
        rw [← ih]
      | cons u us =>
        rw [hsd] at ih
        simp only [List.headD_cons] at ih ⊢
        rw [← ih]

/-- Appending one non-whitespace character adds at most one word. -/
theorem splitWsAux_concat_length (c : Char) (hc : isSpCh c = false) :
    ∀ (l acc : List Char),
      (splitWsAux (l ++ [c]) acc).length ≤ (splitWsAux l acc).length + 1 := by
  intro l
  induction l with
  | nil =>
    intro acc
    have hl : splitWsAux ([c] : List Char) acc = [(c :: acc).reverse] := by
      simp [splitWsAux, hc]
    rw [List.nil_append, hl]
    simp only [splitWsAux, List.length_singleton]
    split_ifs <;> simp
  | cons d l' ih =>
    intro acc
    show (splitWsAux (d :: (l' ++ [c])) acc).length ≤ (splitWsAux (d :: l') acc).length + 1
    by_cases hd : isSpCh d = true
    · simp only [splitWsAux, hd, if_true]
      by_cases hae : acc.isEmpty = true
      · simp only [hae, if_true]
        exact ih []
      · simp only [hae, Bool.false_eq_true, if_false, List.length_cons]
        have := ih ([] : List Char)
        omega
    · have hd' : isSpCh d = false := by simpa using hd
      simp only [splitWsAux, hd', Bool.false_eq_true, if_false]
      exact ih (d :: acc)

/-- `splitWs` of a text plus one non-whitespace character has at most one
word more. -/
theorem splitWs_concat_length (l : List Char) (c : Char) (hc : isSpCh c = false) :
    (splitWs (l ++ [c])).length ≤ (splitWs l).length + 1 :=
  splitWsAux_concat_length c hc l []

/-- `pyStrip` of a text ending in a non-whitespace character. -/
theorem pyStrip_concat (l : List Char) (c : Char) (hc : isSpCh c = false) :
    pyStrip (l ++ [c]) = l.dropWhile isSpCh ++ [c] := by
  unfold pyStrip
  rw [dropWhile_append_total isSpCh l [c]]
  by_cases he : (l.dropWhile isSpCh).isEmpty = true
  · rw [if_pos he, List.isEmpty_iff.mp he]
    simp [List.dropWhile_cons, hc]
  · rw [if_neg he, List.reverse_append]
    simp only [List.reverse_cons, List.reverse_nil, List.nil_append, List.singleton_append]
    rw [List.dropWhile_cons, if_neg (by simp [hc])]
    simp

/-- A stripped text that ends in an appended period ends in terminal
punctuation. -/
theorem endsTerm_strip_concat_dot (l : List Char) :
    MainPy.endsTerminal (pyStrip (l ++ ['.'])) = true := by
  rw [pyStrip_concat l '.' (by decide)]
  simp [MainPy.endsTerminal, List.getLast?_concat]

/-- `delOccF` with a pattern whose head is absent from the text is the
identity, for any fuel. -/
theorem delOccF_not_mem (a : Char) (pr : List Char) :
    ∀ l : List Char, a ∉ l → ∀ fuel, delOccF (a :: pr) fuel l = l := by
  intro l
  induction l with
  | nil => intro _ fuel; cases fuel <;> rfl
  | cons c rest ih =>
    intro hl fuel
    cases fuel with
    | zero => rfl
    | succ f =>
      have hac : (a == c) = false := by
        simp only [beq_eq_false_iff_ne, ne_eq]
        intro h
        exact hl (h ▸ List.mem_cons_self c rest)
      have hpre : (a :: pr).isPrefixOf (c :: rest) = false := by
        rw [show (a :: pr).isPrefixOf (c :: rest) = (a == c && pr.isPrefixOf rest) from rfl,
          hac, Bool.false_and]
      simp only [delOccF, hpre, Bool.false_eq_true, if_false]
      rw [ih (fun hm => hl (List.mem_cons_of_mem c hm)) f]

/-- `pyReplaceDel` with a pattern whose head is absent is the identity. -/
theorem pyReplaceDel_not_mem (a : Char) (pr l : List Char) (hl : a ∉ l) :
    pyReplaceDel (a :: pr) l = l := delOccF_not_mem a pr l hl l.length

/-- Chat-token removal is the identity on text without `'<'`. -/
theorem removeChatTokens_no_lt (l : List Char) (hl : '<' ∉ l) :
    MainPy.removeChatTokens l = l := by
  unfold MainPy.removeChatTokens
  rw [show pyS "<|end|>" = '<' :: pyS "|end|>" from rfl, pyReplaceDel_not_mem _ _ _ hl]
  rw [show pyS "<|assistant|>" = '<' :: pyS "|assistant|>" from rfl,
    pyReplaceDel_not_mem _ _ _ hl]
  rw [show pyS "<|user|>" = '<' :: pyS "|user|>" from rfl, pyReplaceDel_not_mem _ _ _ hl]
  rw [show pyS "<|system|>" = '<' :: pyS "|system|>" from rfl, pyReplaceDel_not_mem _ _ _ hl]

/-- The regex tag removal is the identity on text without `'<'`. -/
theorem reSubTagF_not_mem : ∀ l : List Char, '<' ∉ l → ∀ fuel, reSubTagF fuel l = l := by
  intro l
  induction l with
  | nil => intro _ fuel; cases fuel <;> rfl
  | cons c rest ih =>
    intro hl fuel
    cases fuel with
    | zero => rfl
    | succ f =>
      have hc : ¬c = '<' := by
        intro h
        exact hl (h ▸ List.mem_cons_self c rest)
      simp only [reSubTagF, if_neg hc]
      rw [ih (fun hm => hl (List.mem_cons_of_mem c hm)) f]

/-- `reSubTag` is the identity on text without `'<'`. -/
theorem reSubTag_not_mem (l : List Char) (hl : '<' ∉ l) : reSubTag l = l :=
  reSubTagF_not_mem l hl l.length

/-- The stop-phrase cut is the identity on text without a newline. -/
theorem stopCut_no_newline (l : List Char) (hn : '\n' ∉ l) : MainPy.stopCut l = l := by
  unfold MainPy.stopCut
  split_ifs with h1 h2 h3 h4
  · exfalso
    obtain ⟨s, t, he⟩ := h1
    apply hn
    rw [← he]
    have hm : '\n' ∈ pyS "\n<|" := by decide
    simp only [List.mem_append]
    tauto
  · exfalso
    obtain ⟨s, t, he⟩ := h2
    apply hn
    rw [← he]
    have hm : '\n' ∈ pyS "\nUser:" := by decide
    simp only [List.mem_append]
    tauto
  · exfalso
    obtain ⟨s, t, he⟩ := h3
    apply hn
    rw [← he]
    have hm : '\n' ∈ pyS "\nHuman:" := by decide
    simp only [List.mem_append]
    tauto
  · exfalso
    obtain ⟨s, t, he⟩ := h4
    apply hn
    rw [← he]
    have hm : '\n' ∈ pyS "\nAssistant:" := by decide
    simp only [List.mem_append]
    tauto
  · rfl

/-- A character of a good join is a space or a character of a word. -/
theorem mem_joinWords : ∀ (ws : List (List Char)) (c : Char), c ∈ joinWords ws →
    c = ' ' ∨ ∃ w ∈ ws, c ∈ w := by
  intro ws
  induction ws with
  | nil => intro c hc; cases hc
  | cons w vs ih =>
    intro c hc
    cases vs with
    | nil => exact Or.inr ⟨w, List.mem_singleton.mpr rfl, hc⟩
    | cons v vs' =>
      rw [joinWords_cons _ _ (by simp)] at hc
      rcases List.mem_append.mp hc with hc' | hc'
      · exact Or.inr ⟨w, List.mem_cons_self w _, hc'⟩
      · rcases List.mem_cons.mp hc' with rfl | hc''
        · exact Or.inl rfl
        · rcases ih c hc'' with h | ⟨u, hu, hcu⟩
          · exact Or.inl h
          · exact Or.inr ⟨u, List.mem_cons_of_mem w hu, hcu⟩

/-- A good join contains no newline. -/
theorem joinWords_no_newline (ws : List (List Char)) (hg : goodWords ws) :
    '\n' ∉ joinWords ws := by
  intro hc
  rcases mem_joinWords ws '\n' hc with h | ⟨w, hw, hcw⟩
  · cases h
  · have := (hg w hw).2 '\n' hcw
    simp [isSpCh] at this

/-- A trailing informal ending survives removal of one leading space. -/
theorem endsInformal_space (l : List Char) (h : MainPy.endsInformal (' ' :: l) = true) :
    MainPy.endsInformal l = true := by
  simp only [MainPy.endsInformal, List.any_eq_true, decide_eq_true_eq] at h ⊢
  obtain ⟨w, hw, hsuf⟩ := h
  refine ⟨w, hw, ?_⟩
  have hsp : ' ' ∉ w := by
    have hall : ∀ u ∈ MainPy.informal_endings, ' ' ∉ u := by decide
    exact hall w hw
  rw [show pyLowerL (' ' :: l) = ' ' :: pyLowerL l from rfl] at hsuf
  obtain ⟨t, ht⟩ := hsuf
  cases t with
  | nil =>
    exfalso
    apply hsp
    rw [List.nil_append] at ht
    rw [ht]
    exact List.mem_cons_self _ _
  | cons a t' =>
    rw [List.cons_append] at ht
    injection ht with h1 h2
    exact ⟨t', h2⟩

/-- The last character of an append with a nonempty second part. -/
theorem endsTerminal_append (a y : List Char) (hy : y ≠ []) :
    MainPy.endsTerminal (a ++ y) = MainPy.endsTerminal y := by
  have hy2 := List.dropLast_append_getLast hy
  calc MainPy.endsTerminal (a ++ y)
      = MainPy.endsTerminal (a ++ (y.dropLast ++ [y.getLast hy])) := by rw [hy2]
    _ = MainPy.endsTerminal ((a ++ y.dropLast) ++ [y.getLast hy]) := by
        rw [List.append_assoc]
    _ = MainPy.endsTerminal (y.dropLast ++ [y.getLast hy]) := by
        simp [MainPy.endsTerminal, List.getLast?_concat]
    _ = MainPy.endsTerminal y := by rw [hy2]

/-- `splitWs` ignores the optional leading space of a shape. -/
theorem splitWs_opt_join (b : Bool) (ws : List (List Char)) (hg : goodWords ws) :
    splitWs ((if b then [' '] else []) ++ joinWords ws) = ws := by
  cases b with
  | false =>
    rw [if_neg (by simp), List.nil_append]
    exact splitWs_join ws hg
  | true =>
    rw [if_pos rfl, List.singleton_append, splitWs_space]
    exact splitWs_join ws hg

/-- `pyStrip` removes the optional leading space of a shape. -/
theorem pyStrip_opt_join (b : Bool) (ws : List (List Char)) (hg : goodWords ws) :
    pyStrip ((if b then [' '] else []) ++ joinWords ws) = joinWords ws := by
  cases b with
  | false =>
    rw [if_neg (by simp), List.nil_append]
    exact pyStrip_join ws hg
  | true =>
    rw [if_pos rfl, List.singleton_append]
    exact pyStrip_space_join ws hg

/-- Cutting a good join at the first period and appending a period yields
a good, nonempty join. -/
theorem takeDot_join : ∀ W : List (List Char), goodWords W →
    ∃ ws, goodWords ws ∧ ws ≠ [] ∧
      (joinWords W).takeWhile (fun c => !(c == '.')) ++ ['.'] = joinWords ws := by
  intro W
  induction W with
  | nil =>
    intro _
    refine ⟨[['.']], ?_, by simp, rfl⟩
    intro u hu
    rcases List.mem_singleton.mp hu with rfl
    exact ⟨by simp, by intro c hc; rcases List.mem_singleton.mp hc with rfl; decide⟩
  | cons w vs ih =>
    intro hg
    have hw := hg w (List.mem_cons_self w vs)
    have hvs : goodWords vs := fun v hv => hg v (List.mem_cons_of_mem w hv)
    by_cases hdot : '.' ∈ w
    · have hstop : ∃ c ∈ w, (!(c == '.')) = false := ⟨'.', hdot, by simp⟩
      have htw : (joinWords (w :: vs)).takeWhile (fun c => !(c == '.')) =
          w.takeWhile (fun c => !(c == '.')) := by
        cases vs with
        | nil => rfl
        | cons v vs' =>
          rw [joinWords_cons _ _ (by simp)]
          exact takeWhile_append_stop _ w (' ' :: joinWords (v :: vs')) hstop
      rw [htw]
      refine ⟨[w.takeWhile (fun c => !(c == '.')) ++ ['.']], ?_, by simp, by simp [joinWords]⟩
      intro u hu
      rcases List.mem_singleton.mp hu with rfl
      refine ⟨by simp, ?_⟩
      intro c hc
      rcases List.mem_append.mp hc with hc' | hc'
      · exact hw.2 c (List.Sublist.subset (List.takeWhile_sublist _) hc')
      · rcases List.mem_singleton.mp hc' with rfl
        decide
    · have hall : ∀ c ∈ w, (!(c == '.')) = true := by
        intro c hc
        have hne : c ≠ '.' := fun h => hdot (h ▸ hc)
        simp [hne]
      cases vs with
      | nil =>
        have hz := takeWhile_append_all (fun c => !(c == '.')) w [] hall
        simp only [List.append_nil, List.takeWhile_nil] at hz
        refine ⟨[w ++ ['.']], ?_, by simp, ?_⟩
        · intro u hu
          rcases List.mem_singleton.mp hu with rfl
          refine ⟨by simp, ?_⟩
          intro c hc
          rcases List.mem_append.mp hc with hc' | hc'
          · exact hw.2 c hc'
          · rcases List.mem_singleton.mp hc' with rfl
            decide
        · show (joinWords [w]).takeWhile (fun c => !(c == '.')) ++ ['.'] = joinWords [w ++ ['.']]
          rw [show joinWords [w] = w from rfl, hz]
          rfl
      | cons v vs' =>
        rw [joinWords_cons _ _ (by simp)]
        rw [takeWhile_append_all _ w _ hall]
        rw [show (' ' :: joinWords (v :: vs')).takeWhile (fun c => !(c == '.')) =
            ' ' :: (joinWords (v :: vs')).takeWhile (fun c => !(c == '.')) by
          rw [List.takeWhile_cons, if_pos (by decide)]]
        obtain ⟨ws', hg', hne', heq'⟩ := ih hvs
        refine ⟨w :: ws', ?_, by simp, ?_⟩
        · intro u hu
          rcases List.mem_cons.mp hu with rfl | hu'
          · exact hw
          · exact hg' u hu'
        · rw [joinWords_cons w ws' hne', ← heq']
          simp

/-- Stripping the output of the length cut on a shaped text yields a good
join of at most 50 words that either is the incoming word list (no cut)
or ends in a period. -/
theorem truncStrip_shape (b : Bool) (W : List (List Char)) (hg : goodWords W) :
    ∃ ws : List (List Char), goodWords ws ∧
      pyStrip (MainPy.truncLong ((if b then [' '] else []) ++ joinWords W)) = joinWords ws ∧
      ws.length ≤ 50 ∧ (ws = W ∨ MainPy.endsTerminal (joinWords ws) = true) := by
  have hsplit := splitWs_opt_join b W hg
  unfold MainPy.truncLong
  rw [hsplit]
  by_cases hlen : 50 < W.length
  · rw [if_pos hlen]
    by_cases hsent : 1 < (splitDot ((if b then [' '] else []) ++ joinWords W)).length ∧
        (splitWs ((splitDot ((if b then [' '] else []) ++ joinWords W)).headD [])).length ≤ 45
    · rw [if_pos hsent]
      obtain ⟨hs1, hs2⟩ := hsent
      rw [splitDot_head] at hs2 ⊢
      obtain ⟨W7, hgW7, hneW7, heqW7⟩ := takeDot_join W hg
      cases b with
      | false =>
        rw [if_neg (by simp), List.nil_append] at hs2 ⊢
        refine ⟨W7, hgW7, ?_, ?_, Or.inr ?_⟩
        · rw [heqW7]
          exact pyStrip_join W7 hgW7
        · have h1 : W7.length = (splitWs (joinWords W7)).length := by
            rw [splitWs_join W7 hgW7]
          rw [h1, ← heqW7]
          have h2 := splitWs_concat_length
            ((joinWords W).takeWhile (fun c => !(c == '.'))) '.' (by decide)
          omega
        · rw [← heqW7]
          simp [MainPy.endsTerminal, List.getLast?_concat]
      | true =>
        rw [if_pos rfl, List.singleton_append] at hs2 ⊢
        rw [show (' ' :: joinWords W).takeWhile (fun c => !(c == '.')) =
            ' ' :: (joinWords W).takeWhile (fun c => !(c == '.')) by
          rw [List.takeWhile_cons, if_pos (by decide)]] at hs2 ⊢
        rw [splitWs_space] at hs2
        refine ⟨W7, hgW7, ?_, ?_, Or.inr ?_⟩
        · rw [List.cons_append, heqW7]
          exact pyStrip_space_join W7 hgW7
        · have h1 : W7.length = (splitWs (joinWords W7)).length := by
            rw [splitWs_join W7 hgW7]
          rw [h1, ← heqW7]
          have h2 := splitWs_concat_length
            ((joinWords W).takeWhile (fun c => !(c == '.'))) '.' (by decide)
          omega
        · rw [← heqW7]
          simp [MainPy.endsTerminal, List.getLast?_concat]
    · rw [if_neg hsent]
      have hgt : goodWords (W.take 45) := fun u hu => hg u (List.take_subset _ _ hu)
      have htne : W.take 45 ≠ [] := by
        have hlt : (W.take 45).length = 45 := by
          rw [List.length_take]
          omega
        intro h
        rw [h] at hlt
        simp at hlt
      refine ⟨pushDot (W.take 45), pushDot_good _ hgt, ?_, ?_, Or.inr ?_⟩
      · rw [joinWords_pushDot]
        exact pyStrip_join _ (pushDot_good _ hgt)
      · rw [pushDot_length _ htne, List.length_take]
        omega
      · rw [← joinWords_pushDot]
        simp [MainPy.endsTerminal, List.getLast?_concat]
  · rw [if_neg hlen]
    exact ⟨W, hg, pyStrip_opt_join b W hg, by omega, Or.inl rfl⟩

/-- Every output of `clean_phi3_response` is a good join of at most 50
words that is empty, ends in terminal punctuation, or ends in an informal
ending. -/
theorem clean_shape (x : List Char) :
    ∃ ws : List (List Char), goodWords ws ∧
      MainPy.clean_phi3_response x = joinWords ws ∧ ws.length ≤ 50 ∧
      (MainPy.clean_phi3_response x = [] ∨
        MainPy.endsTerminal (MainPy.clean_phi3_response x) = true ∨
        MainPy.endsInformal (MainPy.clean_phi3_response x) = true) := by
  obtain ⟨b, W5, hgW5, hr5, hbW5⟩ :=
    lstrip_join_shape
      (splitWs (pyStrip (MainPy.stopCut (reSubTag (MainPy.removeChatTokens x)))))
      (splitWs_good _)
  have hkey : MainPy.clean_phi3_response x =
      pyStrip (MainPy.truncLong (MainPy.addFinalDot
        ((if b then [' '] else []) ++ joinWords W5))) := by
    unfold MainPy.clean_phi3_response MainPy.normSpace
    rw [hr5]
  by_cases hc : (!((if b then [' '] else []) ++ joinWords W5).isEmpty &&
      !MainPy.endsTerminal ((if b then [' '] else []) ++ joinWords W5) &&
      !MainPy.endsInformal ((if b then [' '] else []) ++ joinWords W5)) = true
  · have hdot : MainPy.addFinalDot ((if b then [' '] else []) ++ joinWords W5) =
        (if b then [' '] else []) ++ joinWords (pushDot W5) := by
      unfold MainPy.addFinalDot
      rw [if_pos hc, List.append_assoc, joinWords_pushDot]
    rw [hdot] at hkey
    obtain ⟨ws, hgws, heq, hlen, hend⟩ :=
      truncStrip_shape b (pushDot W5) (pushDot_good W5 hgW5)
    refine ⟨ws, hgws, by rw [hkey, heq], hlen, ?_⟩
    rcases hend with rfl | hterm
    · refine Or.inr (Or.inl ?_)
      rw [hkey, heq, ← joinWords_pushDot]
      simp [MainPy.endsTerminal, List.getLast?_concat]
    · refine Or.inr (Or.inl ?_)
      rw [hkey, heq]
      exact hterm
  · have hnd : MainPy.addFinalDot ((if b then [' '] else []) ++ joinWords W5) =
        (if b then [' '] else []) ++ joinWords W5 := by
      unfold MainPy.addFinalDot
      rw [if_neg hc]
    rw [hnd] at hkey
    obtain ⟨ws, hgws, heq, hlen, hend⟩ := truncStrip_shape b W5 hgW5
    refine ⟨ws, hgws, by rw [hkey, heq], hlen, ?_⟩
    rcases hend with rfl | hterm
    · have hdisj : ((if b then [' '] else []) ++ joinWords ws).isEmpty = true ∨
          MainPy.endsTerminal ((if b then [' '] else []) ++ joinWords ws) = true ∨
          MainPy.endsInformal ((if b then [' '] else []) ++ joinWords ws) = true := by
        by_contra hno
        push_neg at hno
        obtain ⟨h1, h2, h3⟩ := hno
        simp only [ne_eq, Bool.not_eq_true] at h1 h2 h3
        apply hc
        rw [h1, h2, h3]
        rfl
      rcases hdisj with he | ht | hi
      · left
        rw [hkey, heq]
        rcases List.append_eq_nil.mp (List.isEmpty_iff.mp he) with ⟨_, h2⟩
        exact h2
      · right; left
        rw [hkey, heq]
        by_cases hW : ws = []
        · exfalso
          subst hW
          cases b with
          | false =>
            rw [if_neg (by simp), List.nil_append] at ht
            simp [MainPy.endsTerminal, joinWords] at ht
          | true =>
            rw [if_pos rfl, List.singleton_append] at ht
            revert ht
            decide
        · rw [endsTerminal_append _ _ (joinWords_ne_nil ws hgws hW)] at ht
          exact ht
      · right; right
        rw [hkey, heq]
        cases b with
        | false =>
          rw [if_neg (by simp), List.nil_append] at hi
          exact hi
        | true =>
          rw [if_pos rfl, List.singleton_append] at hi
          exact endsInformal_space _ hi
    · right; left
      rw [hkey, heq]
      exact hterm

/-- A shaped text with at most 50 words, a proper ending, no `'<'` and no
leading punctuation is a fixed point of `clean_phi3_response`. -/
theorem clean_fixed (ws : List (List Char)) (hg : goodWords ws)
    (hlen : ws.length ≤ 50)
    (hend : joinWords ws = [] ∨ MainPy.endsTerminal (joinWords ws) = true ∨
      MainPy.endsInformal (joinWords ws) = true)
    (hlt : '<' ∉ joinWords ws)
    (hpunct : (joinWords ws).dropWhile (fun c => MainPy.leadPunct.contains c) =
      joinWords ws) :
    MainPy.clean_phi3_response (joinWords ws) = joinWords ws := by
  unfold MainPy.clean_phi3_response
  rw [removeChatTokens_no_lt _ hlt, reSubTag_not_mem _ hlt,
    stopCut_no_newline _ (joinWords_no_newline ws hg)]
  have hnorm : MainPy.normSpace (joinWords ws) = joinWords ws := by
    unfold MainPy.normSpace
    rw [pyStrip_join ws hg, splitWs_join ws hg]
  rw [hnorm, hpunct]
  have hdot : MainPy.addFinalDot (joinWords ws) = joinWords ws := by
    unfold MainPy.addFinalDot
    rw [if_neg ?_]
    intro hcond
    simp only [Bool.and_eq_true, Bool.not_eq_true'] at hcond
    obtain ⟨⟨he', ht'⟩, hi'⟩ := hcond
    rcases hend with he | ht | hi
    · rw [he] at he'
      simp at he'
    · rw [ht] at ht'
      cases ht'
    · rw [hi] at hi'
      cases hi'
  rw [hdot]
  have htr : MainPy.truncLong (joinWords ws) = joinWords ws := by
    unfold MainPy.truncLong
    rw [splitWs_join ws hg, if_neg (by omega)]
  rw [htr]
  exact pyStrip_join ws hg

/-- Claim C8, counterexample: cleaning is not idempotent — removing the
inner tag of "<|a<|b|>c|>" reassembles the tag "<|ac|>", which survives
one clean (the result is "<|ac|>.") but is removed by a second clean (the
result is the empty string). -/
theorem c8_counterexample :
    MainPy.clean_phi3_response (MainPy.clean_phi3_response (pyS "<|a<|b|>c|>")) ≠
      MainPy.clean_phi3_response (pyS "<|a<|b|>c|>") := by decide

/-- Claim C8 (amended): cleaning is idempotent on every input whose
cleaned form contains no `'<'` (no surviving or reassembled delimiter
fragment) and does not begin with one of the lstrip punctuation
characters `.,!?:` — in particular on ordinary cleaned text; for arbitrary
input, `clean(clean(x))` can differ from `clean(x)`. -/
theorem c8_amended_clean_conditional_idempotence (x : List Char)
    (hlt : '<' ∉ MainPy.clean_phi3_response x)
    (hpunct : (MainPy.clean_phi3_response x).dropWhile
        (fun c => MainPy.leadPunct.contains c) = MainPy.clean_phi3_response x) :
    MainPy.clean_phi3_response (MainPy.clean_phi3_response x) =
      MainPy.clean_phi3_response x := by
  obtain ⟨ws, hg, heq, hlen, hend⟩ := clean_shape x
  rw [heq] at hlt hpunct hend ⊢
  exact clean_fixed ws hg hlen hend hlt hpunct

/-- Claim C8, witness: "hello world" cleans to "hello world.", which has
no `'<'` and no leading punctuation, and a second clean leaves it
unchanged. -/
theorem c8_amended_clean_conditional_idempotence_witness :
    '<' ∉ MainPy.clean_phi3_response (pyS "hello world") ∧
    MainPy.clean_phi3_response (MainPy.clean_phi3_response (pyS "hello world")) =
      MainPy.clean_phi3_response (pyS "hello world") :=
  ⟨by decide, c8_amended_clean_conditional_idempotence (pyS "hello world") (by decide)
    (by decide)⟩
